import Mathlib

/-!
# sharpSMT `solver.h`: a shallow embedding

The header `src/solver.h` is embedded as pure Lean definitions.

* `double` is modelled by the exact rationals `ℚ` (no rounding, no NaN, no infinities);
  `unsigned int` indices are natural numbers.
* A member function of `solver` is a function of the solver state that returns either a
  fault or the returned value together with the state after the call.  A `const` member
  function hands back the state it was given.
* The fatal `err_*` routines are declared in the header but defined elsewhere; they are
  modelled as raising a `Fault`.
* `mk_ineq` is declared in the header but defined elsewhere; the builders that call it
  take it as a parameter.
* `ineqc` and its `get_key` come from `ineq.h`; the tables are generic in them.
* A `boost::unordered_map` is an association list with at most one pair for a key; a
  `std::vector` is a list.
-/

namespace volce

/-! ## Enumerations -/

/-- Source `enum ENUM_LOGIC` (solver.h:28-32). -/
inductive ENUM_LOGIC where
  | UNKNOWN_LOGIC
  | QF_LIA
  | QF_LRA
  deriving DecidableEq, Repr

/-- Source `enum ERROR_TYPE` (solver.h:57-70). -/
inductive ERROR_TYPE where
  | ERR_UNEXP_EOF
  | ERR_SYM_MIS
  | ERR_UNKWN_SYM
  | ERR_PARAM_MIS
  | ERR_PARAM_NBOOL
  | ERR_PARAM_NNUM
  | ERR_PARAM_NSAME
  | ERR_LOGIC
  | ERR_MUL_DECL
  | ERR_MUL_DEF
  | ERR_NLINEAR
  | ERR_ZERO_DIVISOR
  deriving DecidableEq, Repr

/-- Source `enum NODE_TYPE` (solver.h:73-83). -/
inductive NODE_TYPE where
  | NT_UNKNOWN
  | NT_ERROR
  | NT_CONST_BOOL
  | NT_CONST_NUM
  | NT_VBOOL
  | NT_VNUM
  | NT_INEQ
  | NT_AND
  | NT_OR
  | NT_EQ
  | NT_ITE_BOOL
  | NT_ITE_NUM
  | NT_ADD
  | NT_MUL
  | NT_DIV
  deriving DecidableEq, Repr

/-! ## Volume result with bounds (`VOL_RES_CLS`, solver.h:85-117) -/

/-- Source `class VOL_RES_CLS`: the three public `double` attributes. -/
structure VOL_RES_CLS where
  value : ℚ
  upper : ℚ
  lower : ℚ
  deriving DecidableEq, Repr

/-- The C `assert` macro.  `ndebug` says whether `NDEBUG` was defined when `<assert.h>` was
last read before the use: then the macro expands to nothing; otherwise a false condition
aborts the program (`none`). -/
def c_assert (ndebug : Bool) (cond : Bool) : Option Unit :=
  if ndebug then some () else if cond then some () else none

/-- Modelled from the spec: the state of `NDEBUG` at the point where the headers included
in solver.h:11-15 (defined outside this header) read `<assert.h>`.  The header defines
`NDEBUG` only at line 17, after those includes, and the spec says that `value ≥ 0` is
enforced, so the assertion of line 96 is taken to be live. -/
def NDEBUG_at_include : Bool := false

namespace VOL_RES_CLS

/-- Source `VOL_RES_CLS()` (solver.h:93). -/
def zero : VOL_RES_CLS := ⟨0, 0, 0⟩

/-- Source `VOL_RES_CLS(double v, double u, double l)` (solver.h:94-102).  The diagnostic
print of line 95 writes to standard output only and is left out. -/
def init (ndebug : Bool) (v u l : ℚ) : Option VOL_RES_CLS := do
  c_assert ndebug (decide (v ≥ 0))
  pure ⟨v, if u < 0 then 0 else u, if l < 0 then 0 else l⟩

/-- Source `operator+(const VOL_RES_CLS v)` (solver.h:104-106). -/
def add (ndebug : Bool) (a v : VOL_RES_CLS) : Option VOL_RES_CLS :=
  init ndebug (a.value + v.value) (a.upper + v.upper) (a.lower + v.lower)

/-- Source `operator+(const double c)` (solver.h:107-109). -/
def add_scalar (ndebug : Bool) (a : VOL_RES_CLS) (c : ℚ) : Option VOL_RES_CLS :=
  init ndebug (a.value + c) (a.upper + c) (a.lower + c)

/-- Source `operator*(const VOL_RES_CLS v)` (solver.h:111-113). -/
def mul (ndebug : Bool) (a v : VOL_RES_CLS) : Option VOL_RES_CLS :=
  init ndebug (a.value * v.value) (a.upper * v.upper) (a.lower * v.lower)

/-- Source `operator*(const double c)` (solver.h:114-116). -/
def mul_scalar (ndebug : Bool) (a : VOL_RES_CLS) (c : ℚ) : Option VOL_RES_CLS :=
  init ndebug (a.value * c) (a.upper * c) (a.lower * c)

/-- A volume result produced by one of the two constructors. -/
def Produced (ndebug : Bool) (r : VOL_RES_CLS) : Prop :=
  r = zero ∨ ∃ v u l : ℚ, init ndebug v u l = some r

/-- The value of a volume result lies between its bounds: `lower ≤ value ≤ upper`. -/
def Bracketed (r : VOL_RES_CLS) : Prop :=
  r.lower ≤ r.value ∧ r.value ≤ r.upper

end VOL_RES_CLS

/-! ## DAG handles and tables (nested classes of `solver`) -/

/-- Source `class dagc` (solver.h:133-192): `<t, id, v, m>`, with the defaults of the
constructor of lines 140-141. -/
structure dagc where
  t : NODE_TYPE := NODE_TYPE.NT_UNKNOWN
  id : Nat := 0
  v : ℚ := 0
  m : ℚ := 1
  deriving DecidableEq, Repr

/-- Source `dagc::operator==` (solver.h:146). -/
def dagc.op_eq (a elem : dagc) : Bool :=
  a.t == elem.t && a.id == elem.id

/-- Source `class dagv` (solver.h:195-208): the private `int v`, `-1` by default. -/
structure dagv where
  v : Int := -1
  deriving DecidableEq, Repr

/-- Source `class var_vec` (solver.h:212-249): values, names and the name map.  The
`unordered_map` is an association list in insertion order. -/
structure var_vec where
  vals : List dagv := []
  names : List String := []
  map : List (String × Nat) := []
  deriving DecidableEq, Repr

/-- Source `class ineq_vec : public var_vec` (solver.h:253-279): the base tables plus the
stored atoms and the map from canonical keys to indices. -/
structure ineq_vec (ineqc : Type) extends var_vec where
  ineqs : List ineqc := []
  ineq_map : List (List ℚ × Nat) := []

/-- Source `class op_vec` (solver.h:283-315). -/
structure op_vec where
  vals : List dagv := []
  types : List NODE_TYPE := []
  ops : List (List dagc) := []
  deriving DecidableEq, Repr

/-- Source `class bunch_elem` (solver.h:318-332): the two public vectors. -/
structure bunch_elem where
  ineq_vals : List dagv := []
  vbool_vals : List dagv := []
  deriving DecidableEq, Repr

/-! ## The solver state -/

/-- Source `class solver`, attributes (solver.h:335-377 and 502-518).  Left out: the z3
objects, the parser buffer and the data of the volume routines, which none of the
builders defined in the header reads or writes. -/
structure solver (ineqc : Type) where
  assert_list : List dagc := []
  bop_list : op_vec := {}
  nop_list : op_vec := {}
  vbool_list : var_vec := {}
  vnum_list : var_vec := {}
  ineq_list : ineq_vec ineqc := {}
  bunch_list : List bunch_elem := []
  enable_bunch : Bool := true
  enable_fact : Bool := true
  enable_ge : Bool := true
  wordlength : Int := 0
  resultdir : String
  tooldir : String
  stats_vol_calls : Nat := 0
  stats_vol_reuses : Nat := 0
  stats_total_dims : Nat := 0
  stats_max_dims : Nat := 0
  stats_fact_bunches : Nat := 0
  logic : ENUM_LOGIC := ENUM_LOGIC.UNKNOWN_LOGIC
  key_map : List (String × dagc) := []
  cond_stack : List dagc := []
  solving_initialized : Bool := false

/-- The fatal errors of the `err_*` routines declared in solver.h:583-605. -/
inductive Fault where
  | all (e : ERROR_TYPE)
  | open_file
  | solving_initialized
  | unbounded_polytope
  | logic_latte
  | logic_vinci
  | logic_polyvest
  deriving DecidableEq, Repr

/-- Modelled from the spec: `err_solving_initialized` is declared at solver.h:601 and
defined outside the header.  The spec lists the freeze fault as fatal: "any further
construction attempts raise a solving already initialized fault", and all fatal errors
terminate the core. -/
def err_solving_initialized : Except Fault Unit :=
  Except.error Fault.solving_initialized

namespace solver

variable {ineqc : Type}

/-- Source `solver(result_dir, tool_dir)` (solver.h:381-395). -/
def new (ineqc : Type) (result_dir tool_dir : String) : solver ineqc :=
  { resultdir := result_dir, tooldir := tool_dir }

/-- Source `mk_true` (solver.h:409-411); `true` converts to the double `1`. -/
def mk_true (s : solver ineqc) : Except Fault (dagc × solver ineqc) := do
  if s.solving_initialized then err_solving_initialized
  return (⟨NODE_TYPE.NT_CONST_BOOL, 0, 1, 1⟩, s)

/-- Source `mk_false` (solver.h:412-414); `false` converts to the double `0`. -/
def mk_false (s : solver ineqc) : Except Fault (dagc × solver ineqc) := do
  if s.solving_initialized then err_solving_initialized
  return (⟨NODE_TYPE.NT_CONST_BOOL, 0, 0, 1⟩, s)

/-- Source `mk_const(const double v)` (solver.h:416). -/
def mk_const (s : solver ineqc) (v : ℚ) : Except Fault (dagc × solver ineqc) :=
  return (⟨NODE_TYPE.NT_CONST_NUM, 0, v, 1⟩, s)

/-- Source `mk_not` (solver.h:423-426). -/
def mk_not (s : solver ineqc) (param : dagc) : Except Fault (dagc × solver ineqc) := do
  if s.solving_initialized then err_solving_initialized
  return (⟨param.t, param.id, param.v, -param.m⟩, s)

/-- Source `mk_neg` (solver.h:436-439). -/
def mk_neg (s : solver ineqc) (param : dagc) : Except Fault (dagc × solver ineqc) := do
  if s.solving_initialized then err_solving_initialized
  return (⟨param.t, param.id, param.v, -param.m⟩, s)

/-- The type of `mk_ineq` (declared at solver.h:551, defined outside the header): a
non-const member function of the arguments `iseq`, `l`, `r`. -/
abbrev MkIneq (ineqc : Type) :=
  Bool → dagc → dagc → solver ineqc → Except Fault (dagc × solver ineqc)

/-- Source `mk_le` (solver.h:443-445). -/
def mk_le (mk_ineq : MkIneq ineqc) (s : solver ineqc) (l r : dagc) :
    Except Fault (dagc × solver ineqc) := do
  if s.solving_initialized then err_solving_initialized
  mk_ineq false l r s

/-- Source `mk_lt` (solver.h:446-448). -/
def mk_lt (mk_ineq : MkIneq ineqc) (s : solver ineqc) (l r : dagc) :
    Except Fault (dagc × solver ineqc) := do
  if s.solving_initialized then err_solving_initialized
  let (h, s1) ← mk_ineq false r l s
  s1.mk_not h

/-- Source `mk_ge` (solver.h:449-451). -/
def mk_ge (mk_ineq : MkIneq ineqc) (s : solver ineqc) (l r : dagc) :
    Except Fault (dagc × solver ineqc) := do
  if s.solving_initialized then err_solving_initialized
  mk_ineq false r l s

/-- Source `mk_gt` (solver.h:452-454). -/
def mk_gt (mk_ineq : MkIneq ineqc) (s : solver ineqc) (l r : dagc) :
    Except Fault (dagc × solver ineqc) := do
  if s.solving_initialized then err_solving_initialized
  let (h, s1) ← mk_ineq false l r s
  s1.mk_not h

/-- Feeding the handle and state returned by one call into a builder of one argument, as
in the nested call `f(g(x))`. -/
def andThen (r : Except Fault (dagc × solver ineqc))
    (f : solver ineqc → dagc → Except Fault (dagc × solver ineqc)) :
    Except Fault (dagc × solver ineqc) :=
  match r with
  | Except.error e => Except.error e
  | Except.ok (h, s1) => f s1 h

/-- A run of negation calls on a handle, one after the other: `true` stands for a call of
`mk_neg`, `false` for a call of `mk_not`. -/
def negations : List Bool → solver ineqc → dagc → Except Fault (dagc × solver ineqc)
  | [], s, h => Except.ok (h, s)
  | b :: bs, s, h => andThen (if b then s.mk_neg h else s.mk_not h) (negations bs)

end solver

/-! ## Table operations

The tables are taken to hold fewer than `2^31` entries, so that no `unsigned int` index
wraps and `%d` prints an index as its decimal digits.  A read `v[i]` of a `std::vector` is
an `Option`: `none` stands for a read outside the vector. -/

namespace unordered_map

variable {κ ν : Type} [DecidableEq κ]

/-- The library `boost::unordered_map::find`: the value stored under `k`, if any. -/
def find : List (κ × ν) → κ → Option ν
  | [], _ => none
  | (k1, v) :: rest, k => if k1 = k then some v else find rest k

/-- The library `boost::unordered_map::insert`: a key already present keeps its value and
nothing is inserted.  Returns the map after the call, the value found under the key after
the call (`p.first->second`) and whether the pair was inserted (`p.second`). -/
def insert (m : List (κ × ν)) (k : κ) (v : ν) : List (κ × ν) × ν × Bool :=
  match find m k with
  | some w => (m, w, false)
  | none => (m ++ [(k, v)], v, true)

end unordered_map

namespace dagc

/-- Source `dagc::isneg` (solver.h:183). -/
def isneg (h : dagc) : Bool := !(decide (h.m > 0))

/-- Source `dagc::bval` (solver.h:185); `(bool)v` is `v != 0`. -/
def bval (h : dagc) : Bool :=
  if h.isneg then !(decide (h.v ≠ 0)) else decide (h.v ≠ 0)

/-- Source `dagc::nval` (solver.h:186). -/
def nval (h : dagc) : ℚ := h.v * h.m

/-- Source `dagc::negate` (solver.h:188). -/
def negate (h : dagc) : dagc := { h with m := -h.m }

end dagc

namespace dagv

/-- Source `dagv(bool val)` (solver.h:198): the `bool` converts to the `int` `1` or `0`. -/
def of_bool (val : Bool) : dagv := ⟨if val then 1 else 0⟩

/-- Source `dagv::is_unknown` (solver.h:201). -/
def is_unknown (x : dagv) : Bool := decide (x.v = -1)

/-- Source `dagv::is_true` (solver.h:202); the `int` `v` counts as true when non-zero. -/
def is_true (x : dagv) : Bool := !x.is_unknown && decide (x.v ≠ 0)

/-- Source `dagv::is_false` (solver.h:203). -/
def is_false (x : dagv) : Bool := !x.is_unknown && !(decide (x.v ≠ 0))

/-- Source `dagv::operator!` (solver.h:204); `!v` is the `bool` `v == 0`. -/
def op_not (x : dagv) : dagv :=
  if x.is_unknown then {} else of_bool (!(decide (x.v ≠ 0)))

/-- Source `dagv::negate` (solver.h:205): `v = !v` stores `1` or `0`. -/
def negate (x : dagv) : dagv :=
  if !x.is_unknown then ⟨if !(decide (x.v ≠ 0)) then 1 else 0⟩ else x

end dagv

namespace var_vec

/-- Source `var_vec::size` (solver.h:241). -/
def size (t : var_vec) : Nat := t.names.length

/-- Source `var_vec::val` and `operator()` (solver.h:219-220), as a read. -/
def val (t : var_vec) (index : Nat) : Option dagv := t.vals[index]?

/-- Source `var_vec::name` and `operator[]` (solver.h:223-224). -/
def name (t : var_vec) (index : Nat) : Option String := t.names[index]?

/-- Source `var_vec::find` (solver.h:226-228). -/
def find (t : var_vec) (name : String) : Nat :=
  match unordered_map.find t.map name with
  | some i => i
  | none => t.size

/-- Source `var_vec::push_back` (solver.h:231-238): the returned flag and the table after
the call. -/
def push_back (t : var_vec) (name : String) : Bool × var_vec :=
  let p := unordered_map.insert t.map name t.size
  if p.2.2 then
    (true, { t with map := p.1, names := t.names ++ [name] })
  else
    (false, { t with map := p.1 })

/-- Source `var_vec::init_vals` (solver.h:243). -/
def init_vals (t : var_vec) : var_vec :=
  { t with vals := List.replicate t.size {} }

/-- The table after a run of `push_back` calls on `t`, one for each name of `l` in turn. -/
def pushes (t : var_vec) (l : List String) : var_vec :=
  l.foldl (fun acc name => (acc.push_back name).2) t

end var_vec

namespace ineq_vec

variable {ineqc : Type}

/-- Source `var_vec::size`, inherited by `ineq_vec`. -/
def size (t : ineq_vec ineqc) : Nat := t.tovar_vec.size

/-- Source `ineq_vec::ie` and `operator[]` (solver.h:258-259), as a read. -/
def ie (t : ineq_vec ineqc) (index : Nat) : Option ineqc := t.ineqs[index]?

/-- Source `ineq_vec::mk_ineq_name` (solver.h:278): `sprintf(name, "_ie%d", n)`. -/
def mk_ineq_name (n : Nat) : String := "_ie" ++ toString n

/-- Source `ineq_vec::push_back` (solver.h:262-272): the returned index and the table
after the call.  `get_key` is `ineqc::get_key` of `ineq.h`. -/
def push_back (get_key : ineqc → List ℚ) (t : ineq_vec ineqc) (ie : ineqc) :
    Nat × ineq_vec ineqc :=
  let p := unordered_map.insert t.ineq_map (get_key ie) t.size
  if p.2.2 then
    let name := mk_ineq_name t.size
    let q := unordered_map.insert t.map name t.size
    let t1 : ineq_vec ineqc :=
      { t with ineq_map := p.1, map := q.1, names := t.names ++ [name],
               ineqs := t.ineqs ++ [ie] }
    (t1.size - 1, t1)
  else
    (p.2.1, { t with ineq_map := p.1 })

/-- Source `var_vec::init_vals`, inherited by `ineq_vec`. -/
def init_vals (t : ineq_vec ineqc) : ineq_vec ineqc :=
  { t with vals := List.replicate t.size {} }

/-- The table after a run of `ineq_vec::push_back` calls on `t`, one for each atom of `l`
in turn. -/
def pushes (get_key : ineqc → List ℚ) (t : ineq_vec ineqc) (l : List ineqc) :
    ineq_vec ineqc :=
  l.foldl (fun acc ie => (push_back get_key acc ie).2) t

/-- The four tables of an atom table are in step: as many names as atoms; the key map
sends a key to the index of the atom stored with that key; the name at index `i` is
`mk_ineq_name(i)`; the name map sends a name to its index. -/
def Consistent (get_key : ineqc → List ℚ) (t : ineq_vec ineqc) : Prop :=
  t.names.length = t.ineqs.length ∧
  (∀ key i, unordered_map.find t.ineq_map key = some i
    ↔ (t.ineqs[i]?).map get_key = some key) ∧
  (∀ i, i < t.names.length → t.names[i]? = some (mk_ineq_name i)) ∧
  (∀ name i, unordered_map.find t.map name = some i ↔ t.names[i]? = some name)

end ineq_vec

namespace op_vec

/-- Source `op_vec::size` (solver.h:307). -/
def size (t : op_vec) : Nat := t.ops.length

/-- Source `op_vec::type` (solver.h:293), as a read. -/
def type (t : op_vec) (index : Nat) : Option NODE_TYPE := t.types[index]?

/-- Source `op_vec::children` and `operator[]` (solver.h:296-297), as a read. -/
def children (t : op_vec) (index : Nat) : Option (List dagc) := t.ops[index]?

/-- Source `op_vec::push_back` (solver.h:300-301). -/
def push_back (t : op_vec) (ty : NODE_TYPE) (elem : List dagc) : op_vec :=
  { t with types := t.types ++ [ty], ops := t.ops ++ [elem] }

/-- The library `std::vector::resize`: cut to `n` entries or pad with `d`. -/
def vector_resize {α : Type} (l : List α) (n : Nat) (d : α) : List α :=
  l.take n ++ List.replicate (n - l.length) d

/-- Source `op_vec::resize` (solver.h:304); new entries are value-initialized. -/
def resize (t : op_vec) (n : Nat) : op_vec :=
  { vals := vector_resize t.vals n {},
    types := vector_resize t.types n NODE_TYPE.NT_UNKNOWN,
    ops := vector_resize t.ops n [] }

/-- Source `op_vec::init_vals` (solver.h:309). -/
def init_vals (t : op_vec) : op_vec :=
  { t with vals := List.replicate t.size {} }

/-- The tables reached from the empty table `op_vec()` by `push_back`, `resize` and
`init_vals`.  (A write through a reference returned by `type`, `children` or `val` changes
an entry and no length.) -/
inductive Built : op_vec → Prop where
  | empty : Built {}
  | push (t : op_vec) (ty : NODE_TYPE) (elem : List dagc) :
      Built t → Built (t.push_back ty elem)
  | resize (t : op_vec) (n : Nat) : Built t → Built (t.resize n)
  | init_vals (t : op_vec) : Built t → Built t.init_vals

end op_vec

namespace bunch_elem

/-- The loops of the constructor `bunch_elem` (solver.h:324-327): the vector after the
first `k` rounds of `push_back(list(i))`, `none` when a read falls outside `vals`. -/
def collect (t : var_vec) : Nat → Option (List dagv)
  | 0 => some []
  | k + 1 => do
    let acc ← collect t k
    let x ← t.val k
    pure (acc ++ [x])

/-- Source `bunch_elem(ineq_vec ineq_list, var_vec vbool_list)` (solver.h:323-328). -/
def init {ineqc : Type} (ineq_list : ineq_vec ineqc) (vbool_list : var_vec) :
    Option bunch_elem := do
  let ineq_vals ← collect ineq_list.tovar_vec ineq_list.size
  let vbool_vals ← collect vbool_list vbool_list.size
  pure ⟨ineq_vals, vbool_vals⟩

end bunch_elem

namespace solver

variable {ineqc : Type}

/-- Source `mk_oper` (solver.h:540-541); the defaults of `val` and `mult` are `0` and `1`. -/
def mk_oper (s : solver ineqc) (t : NODE_TYPE) (p : List dagc) (val mult : ℚ) :
    Except Fault (dagc × solver ineqc) :=
  let s1 : solver ineqc := { s with bop_list := s.bop_list.push_back t p }
  return (⟨t, s1.bop_list.size - 1, val, mult⟩, s1)

/-- Source `mk_num_oper` (solver.h:542-543); same defaults. -/
def mk_num_oper (s : solver ineqc) (t : NODE_TYPE) (p : List dagc) (val mult : ℚ) :
    Except Fault (dagc × solver ineqc) :=
  let s1 : solver ineqc := { s with nop_list := s.nop_list.push_back t p }
  return (⟨t, s1.nop_list.size - 1, val, mult⟩, s1)

end solver

/-! ## Sample states -/

/-- A solver on which solving has been initialized (as after `z3_init`). -/
def frozen_solver : solver Unit :=
  { solver.new Unit "r" "t" with solving_initialized := true }

/-- A solver in the building phase that already holds a Boolean variable and an operator. -/
def sample_solver : solver Unit :=
  { solver.new Unit "r" "t" with
    vbool_list := { names := ["p"], map := [("p", 0)] },
    bop_list := {
      types := [NODE_TYPE.NT_AND],
      ops := [[⟨NODE_TYPE.NT_VBOOL, 0, 0, 1⟩, ⟨NODE_TYPE.NT_VBOOL, 0, 0, -1⟩]] } }

/-- A stand-in for `mk_ineq`, used to run the comparison builders on a concrete solver: it
returns the atom handle `<NT_INEQ, 0, 0, 1>` and leaves the solver as it is. -/
def sample_mk_ineq : solver.MkIneq Unit :=
  fun _ _ _ s => Except.ok (⟨NODE_TYPE.NT_INEQ, 0, 0, 1⟩, s)

/-! ## Handle identity and the constant-time builders -/

section builders

variable {ineqc : Type}

/-- The flipped handle that `mk_not` and `mk_neg` both build. -/
theorem flip_returns (s : solver ineqc) (x : dagc) (h : s.solving_initialized = false) :
    s.mk_not x = Except.ok (⟨x.t, x.id, x.v, -x.m⟩, s) ∧
    s.mk_neg x = Except.ok (⟨x.t, x.id, x.v, -x.m⟩, s) := by
  constructor
  · simp [solver.mk_not, h]; rfl
  · simp [solver.mk_neg, h]; rfl

/-- A guarded builder raises the freeze fault once solving is initialized. -/
theorem guarded_builders_raise (mk_ineq : solver.MkIneq ineqc) (s : solver ineqc)
    (x l r : dagc) (h : s.solving_initialized = true) :
    s.mk_true = Except.error Fault.solving_initialized ∧
    s.mk_false = Except.error Fault.solving_initialized ∧
    s.mk_not x = Except.error Fault.solving_initialized ∧
    s.mk_neg x = Except.error Fault.solving_initialized ∧
    solver.mk_le mk_ineq s l r = Except.error Fault.solving_initialized ∧
    solver.mk_lt mk_ineq s l r = Except.error Fault.solving_initialized ∧
    solver.mk_ge mk_ineq s l r = Except.error Fault.solving_initialized ∧
    solver.mk_gt mk_ineq s l r = Except.error Fault.solving_initialized := by
  refine ⟨?_, ?_, ?_, ?_, ?_, ?_, ?_, ?_⟩ <;>
    simp [solver.mk_true, solver.mk_false, solver.mk_not, solver.mk_neg, solver.mk_le,
      solver.mk_lt, solver.mk_ge, solver.mk_gt, h, err_solving_initialized] <;> rfl

/-- C1: while solving is not initialized, `mk_not(mk_not(x))` returns `x` itself, with the
same `t`, `id`, `v` and `m`, and the state it started from. -/
theorem mk_not_mk_not (s : solver ineqc) (x : dagc) (h : s.solving_initialized = false) :
    solver.andThen (s.mk_not x) solver.mk_not = Except.ok (x, s) := by
  rw [(flip_returns s x h).1]
  simp only [solver.andThen]
  rw [(flip_returns s _ h).1]
  simp

/-- C1 at the handle `<NT_VBOOL, 3, 0, 1>` in a fresh solver. -/
theorem mk_not_mk_not_witness :
    solver.andThen ((solver.new Unit "r" "t").mk_not ⟨NODE_TYPE.NT_VBOOL, 3, 0, 1⟩)
      solver.mk_not = Except.ok (⟨NODE_TYPE.NT_VBOOL, 3, 0, 1⟩, solver.new Unit "r" "t") :=
  mk_not_mk_not (solver.new Unit "r" "t") ⟨NODE_TYPE.NT_VBOOL, 3, 0, 1⟩ rfl

/-- C2: on a solver whose `solving_initialized` flag is set, `mk_const(1.0)` returns the
handle `<NT_CONST_NUM, 0, 1, 1>` and raises nothing, while `mk_true`, `mk_false`, `mk_not`,
`mk_neg`, `mk_le`, `mk_lt`, `mk_ge` and `mk_gt` raise the freeze fault on the same solver. -/
theorem mk_const_ignores_freeze :
    frozen_solver.solving_initialized = true ∧
    frozen_solver.mk_const 1 = Except.ok (⟨NODE_TYPE.NT_CONST_NUM, 0, 1, 1⟩, frozen_solver) ∧
    frozen_solver.mk_true = Except.error Fault.solving_initialized ∧
    frozen_solver.mk_false = Except.error Fault.solving_initialized ∧
    frozen_solver.mk_not ⟨NODE_TYPE.NT_CONST_NUM, 0, 1, 1⟩
      = Except.error Fault.solving_initialized ∧
    frozen_solver.mk_neg ⟨NODE_TYPE.NT_CONST_NUM, 0, 1, 1⟩
      = Except.error Fault.solving_initialized ∧
    solver.mk_le sample_mk_ineq frozen_solver ⟨NODE_TYPE.NT_VNUM, 0, 0, 1⟩
        ⟨NODE_TYPE.NT_CONST_NUM, 0, 2, 1⟩ = Except.error Fault.solving_initialized ∧
    solver.mk_lt sample_mk_ineq frozen_solver ⟨NODE_TYPE.NT_VNUM, 0, 0, 1⟩
        ⟨NODE_TYPE.NT_CONST_NUM, 0, 2, 1⟩ = Except.error Fault.solving_initialized ∧
    solver.mk_ge sample_mk_ineq frozen_solver ⟨NODE_TYPE.NT_VNUM, 0, 0, 1⟩
        ⟨NODE_TYPE.NT_CONST_NUM, 0, 2, 1⟩ = Except.error Fault.solving_initialized ∧
    solver.mk_gt sample_mk_ineq frozen_solver ⟨NODE_TYPE.NT_VNUM, 0, 0, 1⟩
        ⟨NODE_TYPE.NT_CONST_NUM, 0, 2, 1⟩ = Except.error Fault.solving_initialized :=
  ⟨rfl, rfl, rfl, rfl, rfl, rfl, rfl, rfl, rfl, rfl⟩

/-- C3: `a == b` holds exactly when `a.t = b.t` and `a.id = b.id`; the result is the same
whatever `v` and `m` are; `==` is reflexive, symmetric and transitive; and while solving is
not initialized `mk_not(x)` and `mk_neg(x)` return a handle that is `==` to `x` (any handle
either of them returns is `==` to `x`). -/
theorem op_eq_iff_type_and_id :
    (∀ a b : dagc, a.op_eq b = true ↔ a.t = b.t ∧ a.id = b.id) ∧
    (∀ (a b : dagc) (v m w n : ℚ),
      dagc.op_eq ⟨a.t, a.id, v, m⟩ ⟨b.t, b.id, w, n⟩ = a.op_eq b) ∧
    (∀ a : dagc, a.op_eq a = true) ∧
    (∀ a b : dagc, a.op_eq b = true → b.op_eq a = true) ∧
    (∀ a b c : dagc, a.op_eq b = true → b.op_eq c = true → a.op_eq c = true) ∧
    (∀ (ineqc : Type) (s : solver ineqc) (x : dagc),
      s.solving_initialized = false →
      ∃ y z : dagc, s.mk_not x = Except.ok (y, s) ∧ y.op_eq x = true ∧
        s.mk_neg x = Except.ok (z, s) ∧ z.op_eq x = true) ∧
    (∀ (ineqc : Type) (s s1 : solver ineqc) (x y : dagc),
      (s.mk_not x = Except.ok (y, s1) ∨ s.mk_neg x = Except.ok (y, s1)) →
        y.op_eq x = true) := by
  have key : ∀ a b : dagc, a.op_eq b = true ↔ a.t = b.t ∧ a.id = b.id := by
    intro a b
    simp [dagc.op_eq]
  refine ⟨key, ?_, ?_, ?_, ?_, ?_, ?_⟩
  · intro a b v m w n
    simp [dagc.op_eq]
  · intro a
    exact (key a a).2 ⟨rfl, rfl⟩
  · intro a b hab
    obtain ⟨h1, h2⟩ := (key a b).1 hab
    exact (key b a).2 ⟨h1.symm, h2.symm⟩
  · intro a b c hab hbc
    obtain ⟨h1, h2⟩ := (key a b).1 hab
    obtain ⟨h3, h4⟩ := (key b c).1 hbc
    exact (key a c).2 ⟨h1.trans h3, h2.trans h4⟩
  · intro ineqc s x hs
    exact ⟨_, _, (flip_returns s x hs).1, (key _ x).2 ⟨rfl, rfl⟩,
      (flip_returns s x hs).2, (key _ x).2 ⟨rfl, rfl⟩⟩
  · intro ineqc s s1 x y hy
    cases hs : s.solving_initialized with
    | true =>
      have hr := guarded_builders_raise
        (fun _ _ _ _ => Except.error Fault.open_file) s x x x hs
      rw [hr.2.2.1, hr.2.2.2.1] at hy
      rcases hy with hy | hy <;> cases hy
    | false =>
      rw [(flip_returns s x hs).1, (flip_returns s x hs).2] at hy
      have hy2 : (⟨x.t, x.id, x.v, -x.m⟩ : dagc) = y := by
        rcases hy with hy | hy <;> cases hy <;> rfl
      rw [← hy2]
      exact (key _ x).2 ⟨rfl, rfl⟩

/-- C3 at two handles that differ in `v` and `m` only, and at `mk_not` in a fresh solver. -/
theorem op_eq_iff_type_and_id_witness :
    dagc.op_eq ⟨NODE_TYPE.NT_VBOOL, 2, 0, 1⟩ ⟨NODE_TYPE.NT_VBOOL, 2, 5, -1⟩ = true ∧
    dagc.op_eq ⟨NODE_TYPE.NT_VBOOL, 2, 5, -1⟩ ⟨NODE_TYPE.NT_VBOOL, 2, 0, 1⟩ = true ∧
    ∃ y z : dagc,
      (solver.new Unit "r" "t").mk_not ⟨NODE_TYPE.NT_VBOOL, 2, 0, 1⟩
        = Except.ok (y, solver.new Unit "r" "t") ∧
      y.op_eq ⟨NODE_TYPE.NT_VBOOL, 2, 0, 1⟩ = true ∧
      (solver.new Unit "r" "t").mk_neg ⟨NODE_TYPE.NT_VBOOL, 2, 0, 1⟩
        = Except.ok (z, solver.new Unit "r" "t") ∧
      z.op_eq ⟨NODE_TYPE.NT_VBOOL, 2, 0, 1⟩ = true :=
  have hab :
      dagc.op_eq ⟨NODE_TYPE.NT_VBOOL, 2, 0, 1⟩ ⟨NODE_TYPE.NT_VBOOL, 2, 5, -1⟩ = true :=
    (op_eq_iff_type_and_id.1 _ _).2 ⟨rfl, rfl⟩
  ⟨hab, op_eq_iff_type_and_id.2.2.2.1 _ _ hab,
    op_eq_iff_type_and_id.2.2.2.2.2.1 Unit (solver.new Unit "r" "t")
      ⟨NODE_TYPE.NT_VBOOL, 2, 0, 1⟩ rfl⟩

/-- C4: while solving is not initialized, `mk_not(x)` and `mk_neg(x)` both return the handle
`(x.t, x.id, x.v, -x.m)` together with the solver state they were called on: every table of
the state (operator tables, variable tables, atom table) is the one before the call. -/
theorem mk_not_mk_neg_flip_only (s : solver ineqc) (x : dagc)
    (h : s.solving_initialized = false) :
    (∃ s1 : solver ineqc, s.mk_not x = Except.ok (⟨x.t, x.id, x.v, -x.m⟩, s1) ∧ s1 = s ∧
      s1.bop_list = s.bop_list ∧ s1.nop_list = s.nop_list ∧
      s1.vbool_list = s.vbool_list ∧ s1.vnum_list = s.vnum_list ∧
      s1.ineq_list = s.ineq_list ∧
      s1.bop_list.ops.length = s.bop_list.ops.length ∧
      s1.nop_list.ops.length = s.nop_list.ops.length ∧
      s1.vbool_list.names.length = s.vbool_list.names.length ∧
      s1.vnum_list.names.length = s.vnum_list.names.length ∧
      s1.ineq_list.names.length = s.ineq_list.names.length) ∧
    (∃ s2 : solver ineqc, s.mk_neg x = Except.ok (⟨x.t, x.id, x.v, -x.m⟩, s2) ∧ s2 = s ∧
      s2.bop_list = s.bop_list ∧ s2.nop_list = s.nop_list ∧
      s2.vbool_list = s.vbool_list ∧ s2.vnum_list = s.vnum_list ∧
      s2.ineq_list = s.ineq_list ∧
      s2.bop_list.ops.length = s.bop_list.ops.length ∧
      s2.nop_list.ops.length = s.nop_list.ops.length ∧
      s2.vbool_list.names.length = s.vbool_list.names.length ∧
      s2.vnum_list.names.length = s.vnum_list.names.length ∧
      s2.ineq_list.names.length = s.ineq_list.names.length) :=
  ⟨⟨s, (flip_returns s x h).1, rfl, rfl, rfl, rfl, rfl, rfl, rfl, rfl, rfl, rfl, rfl⟩,
   ⟨s, (flip_returns s x h).2, rfl, rfl, rfl, rfl, rfl, rfl, rfl, rfl, rfl, rfl, rfl⟩⟩

/-- C4 at the handle `<NT_AND, 0, 0, 1>` of a solver holding one variable and one operator. -/
theorem mk_not_mk_neg_flip_only_witness :
    sample_solver.mk_not ⟨NODE_TYPE.NT_AND, 0, 0, 1⟩
      = Except.ok (⟨NODE_TYPE.NT_AND, 0, 0, -1⟩, sample_solver) ∧
    sample_solver.mk_neg ⟨NODE_TYPE.NT_AND, 0, 0, 1⟩
      = Except.ok (⟨NODE_TYPE.NT_AND, 0, 0, -1⟩, sample_solver) := by
  obtain ⟨⟨s1, h1, e1, -⟩, ⟨s2, h2, e2, -⟩⟩ :=
    mk_not_mk_neg_flip_only sample_solver ⟨NODE_TYPE.NT_AND, 0, 0, 1⟩ rfl
  subst e1 e2
  exact ⟨h1, h2⟩

/-- C5: for every `mk_ineq`, every solver state and all handles `l`, `r`, the call
`mk_lt(l, r)` gives the same outcome (handle and state after, or fault) as
`mk_not(mk_le(r, l))`, `mk_gt(l, r)` the same as `mk_not(mk_le(l, r))`, and `mk_ge(l, r)`
the same as `mk_le(r, l)`; and while solving is not initialized these calls return whenever
`mk_ineq` does: `mk_lt(l, r)` returns the handle of `mk_ineq(false, r, l)` with `m` negated,
in the state `mk_ineq` left. -/
theorem comparison_builders_rewrite (mk_ineq : solver.MkIneq ineqc) (s : solver ineqc)
    (l r : dagc) :
    solver.mk_lt mk_ineq s l r = solver.andThen (solver.mk_le mk_ineq s r l) solver.mk_not ∧
    solver.mk_gt mk_ineq s l r = solver.andThen (solver.mk_le mk_ineq s l r) solver.mk_not ∧
    solver.mk_ge mk_ineq s l r = solver.mk_le mk_ineq s r l ∧
    (∀ (a : dagc) (s1 : solver ineqc), s.solving_initialized = false →
      mk_ineq false r l s = Except.ok (a, s1) → s1.solving_initialized = false →
      solver.mk_lt mk_ineq s l r = Except.ok (⟨a.t, a.id, a.v, -a.m⟩, s1) ∧
      solver.mk_ge mk_ineq s l r = Except.ok (a, s1)) := by
  refine ⟨?_, ?_, rfl, ?_⟩
  · cases hs : s.solving_initialized with
    | true =>
      simp [solver.mk_lt, solver.mk_le, solver.andThen, hs, err_solving_initialized]
      rfl
    | false =>
      simp only [solver.mk_lt, solver.mk_le, hs]
      cases hq : mk_ineq false r l s with
      | error e => simp [solver.andThen, hq]; rfl
      | ok p => simp [solver.andThen, hq]; rfl
  · cases hs : s.solving_initialized with
    | true =>
      simp [solver.mk_gt, solver.mk_le, solver.andThen, hs, err_solving_initialized]
      rfl
    | false =>
      simp only [solver.mk_gt, solver.mk_le, hs]
      cases hq : mk_ineq false l r s with
      | error e => simp [solver.andThen, hq]; rfl
      | ok p => simp [solver.andThen, hq]; rfl
  · intro a s1 hs hq hs1
    constructor
    · simp only [solver.mk_lt, hs, hq]
      simp
      exact (flip_returns s1 a hs1).1
    · simp only [solver.mk_ge, hs, hq]
      simp

/-- C5 on the sample solver with the stand-in `mk_ineq`: `mk_lt` returns the negated atom
handle and `mk_ge` the atom handle itself. -/
theorem comparison_builders_rewrite_witness :
    solver.mk_lt sample_mk_ineq sample_solver ⟨NODE_TYPE.NT_VNUM, 0, 0, 1⟩
        ⟨NODE_TYPE.NT_CONST_NUM, 0, 2, 1⟩
      = Except.ok (⟨NODE_TYPE.NT_INEQ, 0, 0, -1⟩, sample_solver) ∧
    solver.mk_ge sample_mk_ineq sample_solver ⟨NODE_TYPE.NT_VNUM, 0, 0, 1⟩
        ⟨NODE_TYPE.NT_CONST_NUM, 0, 2, 1⟩
      = Except.ok (⟨NODE_TYPE.NT_INEQ, 0, 0, 1⟩, sample_solver) :=
  (comparison_builders_rewrite sample_mk_ineq sample_solver ⟨NODE_TYPE.NT_VNUM, 0, 0, 1⟩
    ⟨NODE_TYPE.NT_CONST_NUM, 0, 2, 1⟩).2.2.2 ⟨NODE_TYPE.NT_INEQ, 0, 0, 1⟩ sample_solver
    rfl rfl rfl

end builders

/-! ## The result algebra -/

namespace VOL_RES_CLS

/-- The constructor returns the clamped triple when the assertion is compiled out or holds. -/
theorem init_of_pass (ndebug : Bool) (v u l : ℚ) (h : ndebug = true ∨ 0 ≤ v) :
    init ndebug v u l = some ⟨v, if u < 0 then 0 else u, if l < 0 then 0 else l⟩ := by
  rcases h with h | h
  · simp [init, c_assert, h]
  · simp [init, c_assert, h]

/-- The live assertion aborts the constructor on a negative value. -/
theorem init_of_fail (v u l : ℚ) (h : v < 0) : init false v u l = none := by
  simp [init, c_assert, h]

/-- The clamp of the constructor is the maximum with zero. -/
theorem clamp_eq_max (u : ℚ) : (if u < 0 then 0 else u) = max u 0 := by
  split_ifs with h
  · exact (max_eq_right h.le).symm
  · exact (max_eq_left (not_lt.mp h)).symm

/-- What the constructor returns, read backwards. -/
theorem init_some (ndebug : Bool) (v u l : ℚ) (r : VOL_RES_CLS)
    (h : init ndebug v u l = some r) :
    (ndebug = true ∨ 0 ≤ v) ∧ r = ⟨v, max u 0, max l 0⟩ := by
  cases ndebug with
  | true =>
    rw [init_of_pass true v u l (Or.inl rfl), clamp_eq_max, clamp_eq_max] at h
    exact ⟨Or.inl rfl, (Option.some.inj h).symm⟩
  | false =>
    by_cases hv : 0 ≤ v
    · rw [init_of_pass false v u l (Or.inr hv), clamp_eq_max, clamp_eq_max] at h
      exact ⟨Or.inr hv, (Option.some.inj h).symm⟩
    · rw [init_of_fail v u l (not_le.mp hv)] at h
      cases h

/-- The bounds of a produced triple are non-negative, and so is its value when the
assertion is live. -/
theorem Produced.nonneg {ndebug : Bool} {r : VOL_RES_CLS} (h : Produced ndebug r) :
    (ndebug = true ∨ 0 ≤ r.value) ∧ 0 ≤ r.upper ∧ 0 ≤ r.lower := by
  rcases h with h | ⟨v, u, l, h⟩
  · subst h
    exact ⟨Or.inr le_rfl, le_rfl, le_rfl⟩
  · obtain ⟨hv, hr⟩ := init_some ndebug v u l r h
    subst hr
    exact ⟨hv, le_max_right _ _, le_max_right _ _⟩

end VOL_RES_CLS

/-- C6: for every `v ≥ 0` and all `u`, `l`, the constructor `VOL_RES_CLS(v, u, l)` returns
the triple `(v, max(u, 0), max(l, 0))`, whether or not assertions are compiled in, and its
three components are non-negative; so are those of the default constructor; the bounds of
every produced triple are non-negative, and with the assertion live so is its value. -/
theorem VOL_RES_CLS_init_clamps :
    (∀ (ndebug : Bool) (v u l : ℚ), 0 ≤ v →
      VOL_RES_CLS.init ndebug v u l = some ⟨v, max u 0, max l 0⟩ ∧
      0 ≤ v ∧ 0 ≤ max u 0 ∧ 0 ≤ max l 0) ∧
    (0 ≤ VOL_RES_CLS.zero.value ∧ 0 ≤ VOL_RES_CLS.zero.upper ∧
      0 ≤ VOL_RES_CLS.zero.lower) ∧
    (∀ (ndebug : Bool) (r : VOL_RES_CLS), VOL_RES_CLS.Produced ndebug r →
      0 ≤ r.upper ∧ 0 ≤ r.lower) ∧
    (∀ r : VOL_RES_CLS, VOL_RES_CLS.Produced NDEBUG_at_include r →
      0 ≤ r.value ∧ 0 ≤ r.upper ∧ 0 ≤ r.lower) := by
  refine ⟨?_, ⟨le_rfl, le_rfl, le_rfl⟩, ?_, ?_⟩
  · intro ndebug v u l hv
    refine ⟨?_, hv, le_max_right _ _, le_max_right _ _⟩
    rw [VOL_RES_CLS.init_of_pass ndebug v u l (Or.inr hv), VOL_RES_CLS.clamp_eq_max,
      VOL_RES_CLS.clamp_eq_max]
  · intro ndebug r hr
    exact hr.nonneg.2
  · intro r hr
    obtain ⟨hv, hu, hl⟩ := hr.nonneg
    refine ⟨?_, hu, hl⟩
    rcases hv with hv | hv
    · cases hv
    · exact hv

/-- C6 at `VOL_RES_CLS(3, -2, 5)`: the triple `(3, 0, 5)`. -/
theorem VOL_RES_CLS_init_clamps_witness :
    VOL_RES_CLS.init false 3 (-2) 5 = some ⟨3, 0, 5⟩ := by
  have h := (VOL_RES_CLS_init_clamps.1 false 3 (-2) 5 (by norm_num)).1
  norm_num at h
  exact h

/-- C7: with the assertion of line 96 live, `VOL_RES_CLS(v, u, l)` aborts for every `v < 0`,
and no triple with a negative value is produced: not by a constructor, and not by
`operator+` or `operator*` (on triples or with a scalar), whatever their operands. -/
theorem VOL_RES_CLS_value_enforced :
    (∀ v u l : ℚ, v < 0 → VOL_RES_CLS.init NDEBUG_at_include v u l = none) ∧
    (∀ r : VOL_RES_CLS, VOL_RES_CLS.Produced NDEBUG_at_include r → 0 ≤ r.value) ∧
    (∀ a b r : VOL_RES_CLS,
      (VOL_RES_CLS.add NDEBUG_at_include a b = some r ∨
        VOL_RES_CLS.mul NDEBUG_at_include a b = some r) →
        0 ≤ r.value) ∧
    (∀ (a : VOL_RES_CLS) (c : ℚ) (r : VOL_RES_CLS),
      (VOL_RES_CLS.add_scalar NDEBUG_at_include a c = some r ∨
        VOL_RES_CLS.mul_scalar NDEBUG_at_include a c = some r) → 0 ≤ r.value) := by
  have key : ∀ (v u l : ℚ) (r : VOL_RES_CLS),
      VOL_RES_CLS.init NDEBUG_at_include v u l = some r → 0 ≤ r.value := by
    intro v u l r h
    obtain ⟨hv, hr⟩ := VOL_RES_CLS.init_some _ v u l r h
    subst hr
    rcases hv with hv | hv
    · cases hv
    · exact hv
  refine ⟨?_, ?_, ?_, ?_⟩
  · intro v u l hv
    exact VOL_RES_CLS.init_of_fail v u l hv
  · intro r hr
    rcases hr with hr | ⟨v, u, l, hr⟩
    · subst hr
      exact le_rfl
    · exact key v u l r hr
  · intro a b r h
    rcases h with h | h
    · exact key _ _ _ r h
    · exact key _ _ _ r h
  · intro a c r h
    rcases h with h | h
    · exact key _ _ _ r h
    · exact key _ _ _ r h

/-- C7 at `VOL_RES_CLS(-1, 2, 3)`: the constructor aborts. -/
theorem VOL_RES_CLS_value_enforced_witness :
    VOL_RES_CLS.init NDEBUG_at_include (-1) 2 3 = none :=
  VOL_RES_CLS_value_enforced.1 (-1) 2 3 (by norm_num)

/-- With `NDEBUG` in force the same call returns a triple whose value is negative: the
check of C7 rests on the assertion being compiled in. -/
theorem init_unchecked_under_ndebug :
    VOL_RES_CLS.init true (-1) 2 3 = some ⟨-1, 2, 3⟩ := by
  rw [VOL_RES_CLS.init_of_pass true (-1) 2 3 (Or.inl rfl)]
  norm_num

/-- C8: for all volume results `a`, `b` produced by the constructors, `a + b` returns the
triple `(a.value + b.value, a.upper + b.upper, a.lower + b.lower)` and `a * b` the triple
`(a.value * b.value, a.upper * b.upper, a.lower * b.lower)`: nothing is clamped and the
assertion does not fire, whether or not assertions are compiled in. -/
theorem VOL_RES_CLS_add_mul_componentwise (ndebug : Bool) (a b : VOL_RES_CLS)
    (ha : VOL_RES_CLS.Produced ndebug a) (hb : VOL_RES_CLS.Produced ndebug b) :
    VOL_RES_CLS.add ndebug a b
      = some ⟨a.value + b.value, a.upper + b.upper, a.lower + b.lower⟩ ∧
    VOL_RES_CLS.mul ndebug a b
      = some ⟨a.value * b.value, a.upper * b.upper, a.lower * b.lower⟩ := by
  obtain ⟨hav, hau, hal⟩ := ha.nonneg
  obtain ⟨hbv, hbu, hbl⟩ := hb.nonneg
  constructor
  · have hv : ndebug = true ∨ 0 ≤ a.value + b.value := by
      rcases hav with h | h
      · exact Or.inl h
      · rcases hbv with h2 | h2
        · exact Or.inl h2
        · exact Or.inr (add_nonneg h h2)
    rw [VOL_RES_CLS.add, VOL_RES_CLS.init_of_pass ndebug _ _ _ hv,
      if_neg (not_lt.mpr (add_nonneg hau hbu)), if_neg (not_lt.mpr (add_nonneg hal hbl))]
  · have hv : ndebug = true ∨ 0 ≤ a.value * b.value := by
      rcases hav with h | h
      · exact Or.inl h
      · rcases hbv with h2 | h2
        · exact Or.inl h2
        · exact Or.inr (mul_nonneg h h2)
    rw [VOL_RES_CLS.mul, VOL_RES_CLS.init_of_pass ndebug _ _ _ hv,
      if_neg (not_lt.mpr (mul_nonneg hau hbu)), if_neg (not_lt.mpr (mul_nonneg hal hbl))]

/-- C8 at `a = VOL_RES_CLS(2, 3, 1)` and `b = VOL_RES_CLS(4, 5, 0)`: the sum is `(6, 8, 1)`
and the product `(8, 15, 0)`. -/
theorem VOL_RES_CLS_add_mul_componentwise_witness :
    VOL_RES_CLS.add false ⟨2, 3, 1⟩ ⟨4, 5, 0⟩ = some ⟨6, 8, 1⟩ ∧
    VOL_RES_CLS.mul false ⟨2, 3, 1⟩ ⟨4, 5, 0⟩ = some ⟨8, 15, 0⟩ := by
  have ha : VOL_RES_CLS.Produced false ⟨2, 3, 1⟩ :=
    Or.inr ⟨2, 3, 1, by rw [VOL_RES_CLS.init_of_pass false 2 3 1 (Or.inr (by norm_num))]
                        norm_num⟩
  have hb : VOL_RES_CLS.Produced false ⟨4, 5, 0⟩ :=
    Or.inr ⟨4, 5, 0, by rw [VOL_RES_CLS.init_of_pass false 4 5 0 (Or.inr (by norm_num))]
                        norm_num⟩
  have h := VOL_RES_CLS_add_mul_componentwise false ⟨2, 3, 1⟩ ⟨4, 5, 0⟩ ha hb
  norm_num at h
  exact h

/-- C9, as stated, fails at `a = VOL_RES_CLS(1, 1, 1)` and the scalar `c = -1`: `a` is
produced by the constructor, and `a * c` is not the triple `(-1, -1, -1)`: with the
assertion live the product aborts, and with assertions compiled out it is `(-1, 0, 0)`. -/
theorem VOL_RES_CLS_mul_scalar_negative :
    VOL_RES_CLS.init false 1 1 1 = some ⟨1, 1, 1⟩ ∧
    VOL_RES_CLS.init true 1 1 1 = some ⟨1, 1, 1⟩ ∧
    VOL_RES_CLS.mul_scalar false ⟨1, 1, 1⟩ (-1) = none ∧
    VOL_RES_CLS.mul_scalar true ⟨1, 1, 1⟩ (-1) = some ⟨-1, 0, 0⟩ ∧
    (∀ ndebug : Bool, VOL_RES_CLS.mul_scalar ndebug ⟨1, 1, 1⟩ (-1)
      ≠ some ⟨1 * (-1), 1 * (-1), 1 * (-1)⟩) := by
  have h1 : VOL_RES_CLS.mul_scalar false ⟨1, 1, 1⟩ (-1) = none := by
    rw [VOL_RES_CLS.mul_scalar]
    exact VOL_RES_CLS.init_of_fail _ _ _ (by norm_num)
  have h2 : VOL_RES_CLS.mul_scalar true ⟨1, 1, 1⟩ (-1) = some ⟨-1, 0, 0⟩ := by
    rw [VOL_RES_CLS.mul_scalar, VOL_RES_CLS.init_of_pass true _ _ _ (Or.inl rfl)]
    norm_num
  refine ⟨?_, ?_, h1, h2, ?_⟩
  · rw [VOL_RES_CLS.init_of_pass false 1 1 1 (Or.inr (by norm_num))]
    norm_num
  · rw [VOL_RES_CLS.init_of_pass true 1 1 1 (Or.inl rfl)]
    norm_num
  · intro ndebug
    cases ndebug with
    | false => rw [h1]; exact fun h => by cases h
    | true => rw [h2]; norm_num

/-- C9, amended: for every volume result `a` produced by the constructors and every scalar
`c ≥ 0`, `a * c` returns the triple `(a.value * c, a.upper * c, a.lower * c)`, whether or
not assertions are compiled in. -/
theorem VOL_RES_CLS_mul_scalar_nonneg (ndebug : Bool) (a : VOL_RES_CLS) (c : ℚ)
    (ha : VOL_RES_CLS.Produced ndebug a) (hc : 0 ≤ c) :
    VOL_RES_CLS.mul_scalar ndebug a c = some ⟨a.value * c, a.upper * c, a.lower * c⟩ := by
  obtain ⟨hav, hau, hal⟩ := ha.nonneg
  have hv : ndebug = true ∨ 0 ≤ a.value * c := by
    rcases hav with h | h
    · exact Or.inl h
    · exact Or.inr (mul_nonneg h hc)
  rw [VOL_RES_CLS.mul_scalar, VOL_RES_CLS.init_of_pass ndebug _ _ _ hv,
    if_neg (not_lt.mpr (mul_nonneg hau hc)), if_neg (not_lt.mpr (mul_nonneg hal hc))]

/-- C9, amended, at `a = VOL_RES_CLS(2, 3, 1)` and `c = 4`: the triple `(8, 12, 4)`. -/
theorem VOL_RES_CLS_mul_scalar_nonneg_witness :
    VOL_RES_CLS.mul_scalar false ⟨2, 3, 1⟩ 4 = some ⟨8, 12, 4⟩ := by
  have ha : VOL_RES_CLS.Produced false ⟨2, 3, 1⟩ :=
    Or.inr ⟨2, 3, 1, by rw [VOL_RES_CLS.init_of_pass false 2 3 1 (Or.inr (by norm_num))]
                        norm_num⟩
  have h := VOL_RES_CLS_mul_scalar_nonneg false ⟨2, 3, 1⟩ 4 ha (by norm_num)
  norm_num at h
  exact h

/-! ## The multiplier of numeric constants -/

section constants

variable {ineqc : Type}

/-- A run of `n` negation calls multiplies `m` by `(-1)^n` and changes nothing else. -/
theorem negations_flip (ops : List Bool) (s : solver ineqc) (x : dagc)
    (h : s.solving_initialized = false) :
    solver.negations ops s x
      = Except.ok (⟨x.t, x.id, x.v, (-1) ^ ops.length * x.m⟩, s) := by
  induction ops generalizing x with
  | nil => simp [solver.negations]
  | cons b bs ih =>
    have hstep : (if b = true then s.mk_neg x else s.mk_not x)
        = Except.ok (⟨x.t, x.id, x.v, -x.m⟩, s) := by
      cases b
      · simpa using (flip_returns s x h).1
      · simpa using (flip_returns s x h).2
    rw [solver.negations, hstep]
    simp only [solver.andThen]
    rw [ih]
    simp [pow_succ]

/-- C10, as stated, fails at `mk_neg(mk_const(1.0))` and at `mk_not(mk_const(1.0))` in a
fresh solver: the handle returned has type `NT_CONST_NUM` and multiplier `-1`, not `1`. -/
theorem mk_neg_of_const_has_negative_m :
    solver.andThen ((solver.new Unit "r" "t").mk_const 1) solver.mk_neg
      = Except.ok (⟨NODE_TYPE.NT_CONST_NUM, 0, 1, -1⟩, solver.new Unit "r" "t") ∧
    solver.andThen ((solver.new Unit "r" "t").mk_const 1) solver.mk_not
      = Except.ok (⟨NODE_TYPE.NT_CONST_NUM, 0, 1, -1⟩, solver.new Unit "r" "t") ∧
    (⟨NODE_TYPE.NT_CONST_NUM, 0, 1, -1⟩ : dagc).t = NODE_TYPE.NT_CONST_NUM ∧
    (⟨NODE_TYPE.NT_CONST_NUM, 0, 1, -1⟩ : dagc).m ≠ 1 := by
  refine ⟨rfl, rfl, rfl, ?_⟩
  norm_num

/-- C10, amended: `mk_const(v)` returns, for every `v` and in every state, the handle
`<NT_CONST_NUM, 0, v, 1>`, whose multiplier is `1`; while solving is not initialized, a run
of `n` calls of `mk_neg` or `mk_not` (in any mix) on it returns `<NT_CONST_NUM, 0, v, (-1)^n>`:
the multiplier is `1` when `n` is even and `-1` when `n` is odd. -/
theorem const_num_multiplier (s : solver ineqc) (v : ℚ) :
    s.mk_const v = Except.ok (⟨NODE_TYPE.NT_CONST_NUM, 0, v, 1⟩, s) ∧
    (∀ ops : List Bool, s.solving_initialized = false →
      solver.andThen (s.mk_const v) (solver.negations ops)
        = Except.ok (⟨NODE_TYPE.NT_CONST_NUM, 0, v, (-1) ^ ops.length⟩, s) ∧
      (Even ops.length → ((-1 : ℚ)) ^ ops.length = 1) ∧
      (Odd ops.length → ((-1 : ℚ)) ^ ops.length = -1)) := by
  have hc : s.mk_const v = Except.ok (⟨NODE_TYPE.NT_CONST_NUM, 0, v, 1⟩, s) := rfl
  refine ⟨hc, ?_⟩
  intro ops h
  refine ⟨?_, fun he => he.neg_one_pow, fun ho => ho.neg_one_pow⟩
  rw [hc]
  simp only [solver.andThen]
  rw [negations_flip ops s _ h]
  simp

/-- C10, amended, at `mk_not(mk_neg(mk_const(7)))` in a fresh solver: the multiplier is
back to `1`. -/
theorem const_num_multiplier_witness :
    solver.andThen ((solver.new Unit "r" "t").mk_const 7) (solver.negations [true, false])
      = Except.ok (⟨NODE_TYPE.NT_CONST_NUM, 0, 7, 1⟩, solver.new Unit "r" "t") := by
  have h := ((const_num_multiplier (solver.new Unit "r" "t") 7).2 [true, false] rfl).1
  norm_num at h
  exact h

end constants

/-! ## Hash maps and vectors -/

namespace unordered_map

variable {κ ν : Type} [DecidableEq κ]

/-- Looking a key up after one more pair was appended. -/
theorem find_append (m : List (κ × ν)) (k : κ) (v : ν) (k1 : κ) :
    find (m ++ [(k, v)]) k1
      = match find m k1 with
        | some w => some w
        | none => if k = k1 then some v else none := by
  induction m with
  | nil => simp [find]
  | cons p rest ih =>
    obtain ⟨k2, v2⟩ := p
    by_cases h : k2 = k1
    · simp [find, h]
    · simp only [List.cons_append, find, h, if_false]
      exact ih

/-- An insertion under a key already present changes nothing and reports the stored value. -/
theorem insert_of_find_some (m : List (κ × ν)) (k : κ) (v w : ν) (h : find m k = some w) :
    insert m k v = (m, w, false) := by
  simp [insert, h]

/-- An insertion under a new key appends the pair. -/
theorem insert_of_find_none (m : List (κ × ν)) (k : κ) (v : ν) (h : find m k = none) :
    insert m k v = (m ++ [(k, v)], v, true) := by
  simp [insert, h]

/-- An insertion keeps every pair that was in the map. -/
theorem find_insert_of_some (m : List (κ × ν)) (k : κ) (v : ν) (k1 : κ) (w : ν)
    (h : find m k1 = some w) : find (insert m k v).1 k1 = some w := by
  cases hk : find m k with
  | some u => rw [insert_of_find_some m k v u hk]; exact h
  | none =>
    rw [insert_of_find_none m k v hk, find_append, h]

/-- After an insertion the key is present, with the value the call reports. -/
theorem find_insert_self (m : List (κ × ν)) (k : κ) (v : ν) :
    find (insert m k v).1 k = some (insert m k v).2.1 := by
  cases hk : find m k with
  | some u => rw [insert_of_find_some m k v u hk]; exact hk
  | none =>
    rw [insert_of_find_none m k v hk, find_append, hk]
    simp

/-- The map from keys to indices and the vector of entries stay in step when a new entry
is appended under a new key. -/
theorem agree_push {α : Type} (m : List (κ × Nat)) (l : List α) (f : α → κ) (a : α)
    (h : ∀ k i, find m k = some i ↔ (l[i]?).map f = some k) (hn : find m (f a) = none) :
    ∀ k i, find (m ++ [(f a, l.length)]) k = some i ↔ ((l ++ [a])[i]?).map f = some k := by
  intro k i
  rw [find_append]
  rcases Nat.lt_trichotomy i l.length with hi | hi | hi
  · rw [List.getElem?_append_left hi]
    cases hk : find m k with
    | some w => simp only [← h k i, hk]
    | none =>
      have hno : ¬ (l[i]?).map f = some k := by
        rw [← h k i, hk]; simp
      by_cases hfa : f a = k
      · simp only [hfa, if_true]
        constructor
        · intro hw
          have : l.length = i := Option.some.inj hw
          omega
        · intro hw
          exact absurd hw hno
      · simp only [hfa, if_false]
        constructor
        · intro hw; cases hw
        · intro hw; exact absurd hw hno
  · subst hi
    have hget : (l ++ [a])[l.length]? = some a := by simp
    rw [hget]
    cases hk : find m k with
    | some w =>
      have hw : (l[w]?).map f = some k := (h k w).1 hk
      have hwl : w < l.length := by
        by_contra hc
        rw [List.getElem?_eq_none (Nat.le_of_not_lt hc)] at hw
        cases hw
      constructor
      · intro e
        have : w = l.length := Option.some.inj e
        omega
      · intro e
        have hfa : f a = k := Option.some.inj e
        rw [hfa, hk] at hn
        cases hn
    | none =>
      by_cases hfa : f a = k
      · simp [hfa]
      · simp [hfa]
  · have hget : (l ++ [a])[i]? = none := by
      apply List.getElem?_eq_none
      simp
      omega
    rw [hget]
    cases hk : find m k with
    | some w =>
      have hw : (l[w]?).map f = some k := (h k w).1 hk
      have hwl : w < l.length := by
        by_contra hc
        rw [List.getElem?_eq_none (Nat.le_of_not_lt hc)] at hw
        cases hw
      constructor
      · intro e
        have : w = i := Option.some.inj e
        omega
      · intro e; cases e
    | none =>
      by_cases hfa : f a = k
      · simp only [hfa, if_true]
        constructor
        · intro e
          have : l.length = i := Option.some.inj e
          omega
        · intro e; cases e
      · simp [hfa]

end unordered_map

/-! ## Variable tables -/

namespace var_vec

/-- A `push_back` of a name that is in the map returns `false` and changes nothing. -/
theorem push_back_old (t : var_vec) (name : String) (w : Nat)
    (h : unordered_map.find t.map name = some w) : t.push_back name = (false, t) := by
  have hi := unordered_map.insert_of_find_some t.map name t.size w h
  simp only [push_back, hi]
  simp

/-- A `push_back` of a name that is not in the map returns `true` and appends it. -/
theorem push_back_new (t : var_vec) (name : String)
    (h : unordered_map.find t.map name = none) :
    t.push_back name
      = (true, { t with map := t.map ++ [(name, t.names.length)],
                        names := t.names ++ [name] }) := by
  have hi := unordered_map.insert_of_find_none t.map name t.size h
  simp only [push_back, hi]
  simp [size]

/-- The names and the name map stay in step under `push_back`. -/
theorem agree_push_back (t : var_vec) (name : String)
    (h : ∀ k i, unordered_map.find t.map k = some i ↔ t.names[i]? = some k) :
    ∀ k i, unordered_map.find (t.push_back name).2.map k = some i
      ↔ (t.push_back name).2.names[i]? = some k := by
  cases hf : unordered_map.find t.map name with
  | some w => rw [push_back_old t name w hf]; exact h
  | none =>
    rw [push_back_new t name hf]
    have h2 : ∀ k i, unordered_map.find t.map k = some i ↔ (t.names[i]?).map id = some k := by
      intro k i
      rw [Option.map_id, id]
      exact h k i
    intro k i
    have := unordered_map.agree_push t.map t.names id name h2 hf k i
    rw [Option.map_id, id] at this
    exact this

/-- The names and the name map stay in step under a run of `push_back` calls. -/
theorem agree_pushes (l : List String) (t : var_vec)
    (h : ∀ k i, unordered_map.find t.map k = some i ↔ t.names[i]? = some k) :
    ∀ k i, unordered_map.find (t.pushes l).map k = some i
      ↔ (t.pushes l).names[i]? = some k := by
  induction l generalizing t with
  | nil => exact h
  | cons a rest ih => exact ih _ (agree_push_back t a h)

/-- In a table built from the empty one the names and the name map are in step. -/
theorem agree_built (l : List String) (k : String) (i : Nat) :
    unordered_map.find (pushes {} l).map k = some i ↔ (pushes {} l).names[i]? = some k := by
  apply agree_pushes
  intro k i
  simp [unordered_map.find]

/-- A `push_back` adds no names other than its argument. -/
theorem mem_names_push_back (t : var_vec) (name k : String)
    (h : k ∈ (t.push_back name).2.names) : k ∈ t.names ∨ k = name := by
  cases hf : unordered_map.find t.map name with
  | some w => rw [push_back_old t name w hf] at h; exact Or.inl h
  | none =>
    rw [push_back_new t name hf] at h
    simpa using h

/-- Every name of a table was in it before the run or was pushed during it. -/
theorem mem_names_pushes (l : List String) (t : var_vec) (k : String)
    (h : k ∈ (t.pushes l).names) : k ∈ t.names ∨ k ∈ l := by
  induction l generalizing t with
  | nil => exact Or.inl h
  | cons a rest ih =>
    rcases ih (t.push_back a).2 h with h1 | h1
    · rcases mem_names_push_back t a k h1 with h2 | h2
      · exact Or.inl h2
      · exact Or.inr (by simp [h2])
    · exact Or.inr (by simp [h1])

/-- In step with the map, `find` returns the index of a stored name and `size()` for any
other name. -/
theorem find_of_agree (t : var_vec)
    (h : ∀ k i, unordered_map.find t.map k = some i ↔ t.names[i]? = some k) :
    (∀ i k, t.names[i]? = some k → t.find k = i) ∧
    (∀ k, k ∉ t.names → t.find k = t.size) := by
  constructor
  · intro i k hk
    simp [find, (h k i).2 hk]
  · intro k hk
    cases hf : unordered_map.find t.map k with
    | some w =>
      have := (h k w).1 hf
      exact absurd (List.getElem?_mem this) hk
    | none => simp [find, hf]

end var_vec

/-- C11: in a variable table built from the empty table by any run of `push_back` calls,
`find(name(i)) = i` for every index `i < size()`; `find` returns `size()` for every name
that was never pushed; and a `push_back` that returns `true` places its name at the index
equal to the size before the call, where `find` then finds it. -/
theorem var_vec_names_and_map_agree (l : List String) :
    (∀ i, i < (var_vec.pushes {} l).size →
      ∃ name, (var_vec.pushes {} l).name i = some name ∧
        (var_vec.pushes {} l).find name = i) ∧
    (∀ name, name ∉ l → (var_vec.pushes {} l).find name = (var_vec.pushes {} l).size) ∧
    (∀ name, ((var_vec.pushes {} l).push_back name).1 = true →
      ((var_vec.pushes {} l).push_back name).2.name (var_vec.pushes {} l).size = some name ∧
      ((var_vec.pushes {} l).push_back name).2.find name = (var_vec.pushes {} l).size) := by
  have hag := var_vec.agree_built l
  obtain ⟨hfind, hnone⟩ := var_vec.find_of_agree _ hag
  refine ⟨?_, ?_, ?_⟩
  · intro i hi
    have hi2 : i < (var_vec.pushes {} l).names.length := hi
    refine ⟨(var_vec.pushes {} l).names[i], ?_, ?_⟩
    · simp [var_vec.name, hi2]
    · exact hfind i _ (by simp [hi2])
  · intro name hname
    apply hnone
    intro hmem
    rcases var_vec.mem_names_pushes l {} name hmem with h1 | h1
    · simp at h1
    · exact hname h1
  · intro name hpush
    cases hf : unordered_map.find (var_vec.pushes {} l).map name with
    | some w =>
      rw [var_vec.push_back_old _ name w hf] at hpush
      cases hpush
    | none =>
      have hag2 := var_vec.agree_push_back _ name hag
      obtain ⟨hfind2, -⟩ := var_vec.find_of_agree _ hag2
      have hname : ((var_vec.pushes {} l).push_back name).2.names[(var_vec.pushes {} l).size]?
          = some name := by
        rw [var_vec.push_back_new _ name hf]
        simp [var_vec.size]
      exact ⟨hname, hfind2 _ _ hname⟩

/-- C11 on the run `push_back("x")`, `push_back("y")`, `push_back("x")`: the table holds
`x` at index 0 and `y` at index 1, and `find("z")` is the size 2. -/
theorem var_vec_names_and_map_agree_witness :
    (var_vec.pushes {} ["x", "y", "x"]).size = 2 ∧
    (var_vec.pushes {} ["x", "y", "x"]).name 1 = some "y" ∧
    (var_vec.pushes {} ["x", "y", "x"]).find "y" = 1 ∧
    (var_vec.pushes {} ["x", "y", "x"]).find "z" = 2 := by
  have h := var_vec_names_and_map_agree ["x", "y", "x"]
  have hs : (var_vec.pushes {} ["x", "y", "x"]).size = 2 := by decide
  obtain ⟨name, h1, h2⟩ := h.1 1 (by rw [hs]; decide)
  have hn : (var_vec.pushes {} ["x", "y", "x"]).name 1 = some "y" := by decide
  have he : name = "y" := Option.some.inj (h1.symm.trans hn)
  subst he
  refine ⟨hs, h1, h2, ?_⟩
  have hz := h.2.1 "z" (by decide)
  rw [hs] at hz
  exact hz

/-- C12: `var_vec::push_back(name)` returns `false` exactly when the name is already in the
table (a key of the name map; in a table built by `push_back` calls: one of its names), and
then the table is unchanged; it returns `true` exactly when the name is new, and then the
name is appended and the size grows by exactly one. -/
theorem var_vec_push_back_flag (t : var_vec) (name : String) :
    ((t.push_back name).1 = false ↔ ∃ w, unordered_map.find t.map name = some w) ∧
    ((t.push_back name).1 = false → (t.push_back name).2 = t) ∧
    ((t.push_back name).1 = true ↔ unordered_map.find t.map name = none) ∧
    ((t.push_back name).1 = true →
      (t.push_back name).2.size = t.size + 1 ∧
      (t.push_back name).2.names = t.names ++ [name]) ∧
    (∀ l : List String,
      (((var_vec.pushes {} l).push_back name).1 = false
        ↔ name ∈ (var_vec.pushes {} l).names) ∧
      (((var_vec.pushes {} l).push_back name).1 = true
        ↔ name ∉ (var_vec.pushes {} l).names)) := by
  have hgen : ∀ u : var_vec,
      ((u.push_back name).1 = false ↔ ∃ w, unordered_map.find u.map name = some w) ∧
      ((u.push_back name).1 = true ↔ unordered_map.find u.map name = none) := by
    intro u
    cases hf : unordered_map.find u.map name with
    | some w => rw [var_vec.push_back_old u name w hf]; simp
    | none => rw [var_vec.push_back_new u name hf]; simp
  refine ⟨(hgen t).1, ?_, (hgen t).2, ?_, ?_⟩
  · intro h
    obtain ⟨w, hw⟩ := (hgen t).1.1 h
    rw [var_vec.push_back_old t name w hw]
  · intro h
    have hf := (hgen t).2.1 h
    rw [var_vec.push_back_new t name hf]
    simp [var_vec.size]
  · intro l
    have hag := var_vec.agree_built l
    have hmem : name ∈ (var_vec.pushes {} l).names
        ↔ ∃ w, unordered_map.find (var_vec.pushes {} l).map name = some w := by
      rw [List.mem_iff_getElem?]
      constructor
      · rintro ⟨i, hi⟩
        exact ⟨i, (hag name i).2 hi⟩
      · rintro ⟨i, hi⟩
        exact ⟨i, (hag name i).1 hi⟩
    constructor
    · rw [hmem]
      exact (hgen _).1
    · rw [hmem, (hgen _).2]
      cases unordered_map.find (var_vec.pushes {} l).map name <;> simp

/-- C12 on the table holding `x` and `y`: pushing `y` again returns `false` and leaves the
table as it is; pushing `z` returns `true` and the size becomes 3. -/
theorem var_vec_push_back_flag_witness :
    ((var_vec.pushes {} ["x", "y"]).push_back "y").1 = false ∧
    ((var_vec.pushes {} ["x", "y"]).push_back "y").2 = var_vec.pushes {} ["x", "y"] ∧
    ((var_vec.pushes {} ["x", "y"]).push_back "z").1 = true ∧
    ((var_vec.pushes {} ["x", "y"]).push_back "z").2.size = 3 := by
  have hy := var_vec_push_back_flag (var_vec.pushes {} ["x", "y"]) "y"
  have hz := var_vec_push_back_flag (var_vec.pushes {} ["x", "y"]) "z"
  have h1 : ((var_vec.pushes {} ["x", "y"]).push_back "y").1 = false :=
    hy.1.2 ⟨1, by decide⟩
  have h2 : ((var_vec.pushes {} ["x", "y"]).push_back "z").1 = true :=
    hz.2.2.1.2 (by decide)
  exact ⟨h1, hy.2.1 h1, h2, (hz.2.2.2.1 h2).1⟩

/-! ## Atom tables -/

namespace ineq_vec

variable {ineqc : Type}

/-- The character of a decimal digit gives the digit back. -/
theorem digitChar_toNat (d : Nat) (h : d < 10) : (Nat.digitChar d).toNat - 48 = d := by
  interval_cases d <;> rfl

/-- The digit printer of `toString`, with its accumulator, in terms of `Nat.digits`. -/
theorem toDigitsCore_eq (fuel n : Nat) (ds : List Char) (h : n < fuel) :
    Nat.toDigitsCore 10 fuel n ds
      = (if n = 0 then ['0'] else (Nat.digits 10 n).reverse.map Nat.digitChar) ++ ds := by
  induction fuel generalizing n ds with
  | zero => omega
  | succ f ih =>
    unfold Nat.toDigitsCore
    simp only []
    by_cases h0 : n / 10 = 0
    · have hn : n < 10 := by omega
      rw [if_pos h0, Nat.mod_eq_of_lt hn]
      by_cases hz : n = 0
      · subst hz
        rfl
      · rw [if_neg hz, Nat.digits_of_lt 10 n hz hn]
        rfl
    · have hz : n ≠ 0 := by omega
      rw [if_neg h0, ih (n / 10) _ (by omega), if_neg h0, if_neg hz,
        Nat.digits_def' (by norm_num) (Nat.pos_of_ne_zero hz)]
      simp

/-- A number is read back from its printed decimal digits. -/
theorem toDigits_left_inverse (n : Nat) :
    Nat.ofDigits 10 (((Nat.toDigits 10 n).map (fun c => c.toNat - 48)).reverse) = n := by
  rw [Nat.toDigits, toDigitsCore_eq (n + 1) n [] (by omega), List.append_nil]
  by_cases hz : n = 0
  · subst hz
    rfl
  · rw [if_neg hz, List.map_map]
    have hid : ((Nat.digits 10 n).reverse.map ((fun c => c.toNat - 48) ∘ Nat.digitChar))
        = (Nat.digits 10 n).reverse := by
      conv_rhs => rw [← List.map_id (Nat.digits 10 n).reverse]
      apply List.map_congr_left
      intro d hd
      exact digitChar_toNat d (Nat.digits_lt_base (by norm_num) (List.mem_reverse.mp hd))
    rw [hid, List.reverse_reverse, Nat.ofDigits_digits]

/-- Distinct indices have distinct atom names. -/
theorem mk_ineq_name_injective (n m : Nat) (h : mk_ineq_name n = mk_ineq_name m) :
    n = m := by
  have hd := congrArg String.data h
  simp only [mk_ineq_name] at hd
  rw [String.data_append, String.data_append] at hd
  have hs : Nat.toDigits 10 n = Nat.toDigits 10 m := List.append_cancel_left hd
  rw [← toDigits_left_inverse n, ← toDigits_left_inverse m, hs]

/-- A `push_back` of an atom whose key is in the key map returns the stored index and
changes nothing. -/
theorem push_back_stored (get_key : ineqc → List ℚ) (t : ineq_vec ineqc) (ie : ineqc) (w : Nat)
    (h : unordered_map.find t.ineq_map (get_key ie) = some w) :
    push_back get_key t ie = (w, t) := by
  have hi := unordered_map.insert_of_find_some t.ineq_map (get_key ie) t.size w h
  simp only [push_back, hi]
  simp

/-- A `push_back` of an atom with a new key appends to all four tables and returns the old
size. -/
theorem push_back_fresh (get_key : ineqc → List ℚ) (t : ineq_vec ineqc) (ie : ineqc)
    (h : unordered_map.find t.ineq_map (get_key ie) = none) :
    push_back get_key t ie
      = (t.names.length,
          { t with
            ineq_map := t.ineq_map ++ [(get_key ie, t.names.length)],
            map := (unordered_map.insert t.map (mk_ineq_name t.names.length)
              t.names.length).1,
            names := t.names ++ [mk_ineq_name t.names.length],
            ineqs := t.ineqs ++ [ie] }) := by
  have hi := unordered_map.insert_of_find_none t.ineq_map (get_key ie) t.size h
  simp only [push_back, hi]
  simp [size, var_vec.size]

/-- The empty atom table is consistent. -/
theorem consistent_empty (get_key : ineqc → List ℚ) :
    Consistent get_key ({} : ineq_vec ineqc) := by
  refine ⟨rfl, ?_, ?_, ?_⟩
  · intro key i; simp [unordered_map.find]
  · intro i hi; simp at hi
  · intro name i; simp [unordered_map.find]

/-- Consistency is kept by `push_back`. -/
theorem consistent_push_back (get_key : ineqc → List ℚ) (t : ineq_vec ineqc) (ie : ineqc)
    (h : Consistent get_key t) : Consistent get_key (push_back get_key t ie).2 := by
  obtain ⟨hlen, hkey, hname, hmap⟩ := h
  cases hf : unordered_map.find t.ineq_map (get_key ie) with
  | some w => rw [push_back_stored get_key t ie w hf]; exact ⟨hlen, hkey, hname, hmap⟩
  | none =>
    rw [push_back_fresh get_key t ie hf]
    have hfresh : unordered_map.find t.map (mk_ineq_name t.names.length) = none := by
      cases hm : unordered_map.find t.map (mk_ineq_name t.names.length) with
      | none => rfl
      | some j =>
        exfalso
        have hj := (hmap _ j).1 hm
        have hjl : j < t.names.length := by
          by_contra hc
          rw [List.getElem?_eq_none (Nat.le_of_not_lt hc)] at hj
          cases hj
        rw [hname j hjl] at hj
        have := mk_ineq_name_injective _ _ (Option.some.inj hj)
        omega
    rw [unordered_map.insert_of_find_none _ _ _ hfresh]
    refine ⟨?_, ?_, ?_, ?_⟩
    · simp [hlen]
    · have := unordered_map.agree_push t.ineq_map t.ineqs get_key ie hkey hf
      rw [← hlen] at this
      exact this
    · intro i hi
      simp only [List.length_append, List.length_singleton] at hi
      by_cases hil : i < t.names.length
      · show (t.names ++ [mk_ineq_name t.names.length])[i]? = _
        rw [List.getElem?_append_left hil]
        exact hname i hil
      · have hie : i = t.names.length := by omega
        subst hie
        simp
    · have h2 : ∀ k i, unordered_map.find t.map k = some i
          ↔ (t.names[i]?).map id = some k := by
        intro k i
        rw [Option.map_id, id]
        exact hmap k i
      intro k i
      have := unordered_map.agree_push t.map t.names id (mk_ineq_name t.names.length)
        h2 hfresh k i
      rw [Option.map_id, id] at this
      exact this

/-- Consistency is kept by a run of `push_back` calls. -/
theorem consistent_pushes (get_key : ineqc → List ℚ) (l : List ineqc) (t : ineq_vec ineqc)
    (h : Consistent get_key t) : Consistent get_key (pushes get_key t l) := by
  induction l generalizing t with
  | nil => exact h
  | cons a rest ih => exact ih _ (consistent_push_back get_key t a h)

/-- A `push_back` keeps every key of the key map, with its index. -/
theorem find_key_push_back (get_key : ineqc → List ℚ) (t : ineq_vec ineqc) (ie : ineqc)
    (key : List ℚ) (w : Nat) (h : unordered_map.find t.ineq_map key = some w) :
    unordered_map.find (push_back get_key t ie).2.ineq_map key = some w := by
  cases hf : unordered_map.find t.ineq_map (get_key ie) with
  | some u => rw [push_back_stored get_key t ie u hf]; exact h
  | none =>
    rw [push_back_fresh get_key t ie hf]
    show unordered_map.find (t.ineq_map ++ [(get_key ie, t.names.length)]) key = some w
    rw [unordered_map.find_append, h]

/-- After a `push_back` the key of the atom is in the key map. -/
theorem find_key_self (get_key : ineqc → List ℚ) (t : ineq_vec ineqc) (ie : ineqc) :
    ∃ w, unordered_map.find (push_back get_key t ie).2.ineq_map (get_key ie) = some w := by
  cases hf : unordered_map.find t.ineq_map (get_key ie) with
  | some u => rw [push_back_stored get_key t ie u hf]; exact ⟨u, hf⟩
  | none =>
    rw [push_back_fresh get_key t ie hf]
    refine ⟨t.names.length, ?_⟩
    show unordered_map.find (t.ineq_map ++ [(get_key ie, t.names.length)]) (get_key ie) = _
    rw [unordered_map.find_append, hf]
    simp

/-- Every key pushed during a run is in the key map after it. -/
theorem find_key_pushes (get_key : ineqc → List ℚ) (l : List ineqc) (t : ineq_vec ineqc)
    (a : ineqc) (ha : a ∈ l) :
    ∃ w, unordered_map.find (pushes get_key t l).ineq_map (get_key a) = some w := by
  have keep : ∀ (l : List ineqc) (t : ineq_vec ineqc) (key : List ℚ) (w : Nat),
      unordered_map.find t.ineq_map key = some w →
      unordered_map.find (pushes get_key t l).ineq_map key = some w := by
    intro l
    induction l with
    | nil => intro t key w h; exact h
    | cons b rest ih =>
      intro t key w h
      exact ih _ key w (find_key_push_back get_key t b key w h)
  induction l generalizing t with
  | nil => cases ha
  | cons b rest ih =>
    rcases List.mem_cons.mp ha with hab | hab
    · subst hab
      obtain ⟨w, hw⟩ := find_key_self get_key t a
      exact ⟨w, keep rest _ _ w hw⟩
    · exact ih _ hab

end ineq_vec

namespace ineq_vec

variable {ineqc : Type}

/-- The index returned by `push_back` is the one the key map holds for the key after the
call. -/
theorem push_back_index (get_key : ineqc → List ℚ) (t : ineq_vec ineqc) (ie : ineqc) :
    unordered_map.find (push_back get_key t ie).2.ineq_map (get_key ie)
      = some (push_back get_key t ie).1 := by
  cases hf : unordered_map.find t.ineq_map (get_key ie) with
  | some u => rw [push_back_stored get_key t ie u hf]; exact hf
  | none =>
    rw [push_back_fresh get_key t ie hf]
    show unordered_map.find (t.ineq_map ++ [(get_key ie, t.names.length)]) (get_key ie) = _
    rw [unordered_map.find_append, hf]
    simp

/-- In a consistent table, an index the key map holds for a key is below the size and the
atom stored there has that key. -/
theorem stored_of_find (get_key : ineqc → List ℚ) (t : ineq_vec ineqc)
    (h : Consistent get_key t) (key : List ℚ) (w : Nat)
    (hw : unordered_map.find t.ineq_map key = some w) :
    w < t.size ∧ ∃ a, t.ie w = some a ∧ get_key a = key := by
  obtain ⟨hlen, hkey, -, -⟩ := h
  have hm := (hkey key w).1 hw
  cases ha : t.ineqs[w]? with
  | none => rw [ha] at hm; cases hm
  | some a =>
    rw [ha] at hm
    have hwl : w < t.ineqs.length := by
      by_contra hc
      rw [List.getElem?_eq_none (Nat.le_of_not_lt hc)] at ha
      cases ha
    refine ⟨?_, a, ha, Option.some.inj hm⟩
    show w < t.names.length
    omega

end ineq_vec

section atoms

variable {ineqc : Type}

/-- C13: in an atom table built from the empty table by any run of `ineq_vec::push_back`
calls, two indices that hold atoms with the same canonical key are the same index; each
further call returns an index below the new size at which an atom with the key of the
argument is stored; and for every atom that was pushed there is exactly one index holding
an atom with its key. -/
theorem ineq_vec_keys_unique (get_key : ineqc → List ℚ) (l : List ineqc) :
    (∀ i j a b, (ineq_vec.pushes get_key {} l).ie i = some a →
      (ineq_vec.pushes get_key {} l).ie j = some b → get_key a = get_key b → i = j) ∧
    (∀ ie : ineqc,
      (ineq_vec.push_back get_key (ineq_vec.pushes get_key {} l) ie).1
        < (ineq_vec.push_back get_key (ineq_vec.pushes get_key {} l) ie).2.size ∧
      ∃ a, (ineq_vec.push_back get_key (ineq_vec.pushes get_key {} l) ie).2.ie
          (ineq_vec.push_back get_key (ineq_vec.pushes get_key {} l) ie).1 = some a ∧
        get_key a = get_key ie) ∧
    (∀ a, a ∈ l →
      ∃! i, ∃ b, (ineq_vec.pushes get_key {} l).ie i = some b ∧ get_key b = get_key a) := by
  have hc := ineq_vec.consistent_pushes get_key l {} (ineq_vec.consistent_empty get_key)
  have huniq : ∀ i j a b, (ineq_vec.pushes get_key {} l).ie i = some a →
      (ineq_vec.pushes get_key {} l).ie j = some b → get_key a = get_key b → i = j := by
    intro i j a b hi hj hab
    have h1 := (hc.2.1 (get_key a) i).2 (by
      show ((ineq_vec.pushes get_key {} l).ie i).map get_key = _
      rw [hi]; rfl)
    have h2 := (hc.2.1 (get_key a) j).2 (by
      show ((ineq_vec.pushes get_key {} l).ie j).map get_key = _
      rw [hj, hab]; rfl)
    rw [h1] at h2
    exact Option.some.inj h2
  refine ⟨huniq, ?_, ?_⟩
  · intro ie
    have hc2 := ineq_vec.consistent_push_back get_key _ ie hc
    exact ineq_vec.stored_of_find get_key _ hc2 _ _ (ineq_vec.push_back_index get_key _ ie)
  · intro a ha
    obtain ⟨w, hw⟩ := ineq_vec.find_key_pushes get_key l {} a ha
    obtain ⟨-, b, hb, hkb⟩ := ineq_vec.stored_of_find get_key _ hc _ w hw
    refine ⟨w, ⟨b, hb, hkb⟩, ?_⟩
    rintro j ⟨c, hcj, hkc⟩
    exact huniq j w c b hcj hb (hkc.trans hkb.symm)

/-- C13 on the run of pushes of the atoms `[1, 2]`, `[3]`, `[1, 2]` (an atom being its own
key): a fourth push of `[3]` returns index 1, below the size 2. -/
theorem ineq_vec_keys_unique_witness :
    (ineq_vec.push_back id (ineq_vec.pushes id {} [[1, 2], [3], [1, 2]]) [3]).1 = 1 ∧
    (ineq_vec.push_back id (ineq_vec.pushes id {} [[1, 2], [3], [1, 2]]) [3]).2.size = 2 ∧
    ∃ a, (ineq_vec.push_back id (ineq_vec.pushes id {} [[1, 2], [3], [1, 2]]) [3]).2.ie
        (ineq_vec.push_back id (ineq_vec.pushes id {} [[1, 2], [3], [1, 2]]) [3]).1
          = some a ∧ id a = id [3] :=
  ⟨by decide, by decide,
    ((ineq_vec_keys_unique id [[1, 2], [3], [1, 2]]).2.1 [3]).2⟩

/-- C14: for every atom table and all atoms `a`, `b` with the same canonical key, a
`push_back(b)` after `push_back(a)` returns the index the first call returned and leaves
the table as the first call left it (size, names, atoms and both maps). -/
theorem ineq_vec_push_back_idempotent (get_key : ineqc → List ℚ) (t : ineq_vec ineqc)
    (a b : ineqc) (h : get_key b = get_key a) :
    ineq_vec.push_back get_key (ineq_vec.push_back get_key t a).2 b
      = ((ineq_vec.push_back get_key t a).1, (ineq_vec.push_back get_key t a).2) := by
  have hi := ineq_vec.push_back_index get_key t a
  rw [← h] at hi
  exact ineq_vec.push_back_stored get_key _ b _ hi

/-- C14 on the table holding the atoms `[1, 2]` and `[3]`: pushing `[5]` twice returns
index 2 both times, and the second call changes nothing. -/
theorem ineq_vec_push_back_idempotent_witness :
    (ineq_vec.push_back id (ineq_vec.pushes id {} [[1, 2], [3]]) [5]).1 = 2 ∧
    ineq_vec.push_back id (ineq_vec.push_back id (ineq_vec.pushes id {} [[1, 2], [3]]) [5]).2
        [5]
      = (2, (ineq_vec.push_back id (ineq_vec.pushes id {} [[1, 2], [3]]) [5]).2) := by
  have h1 : (ineq_vec.push_back id (ineq_vec.pushes id {} [[1, 2], [3]]) [5]).1 = 2 := by
    decide
  have h := ineq_vec_push_back_idempotent id (ineq_vec.pushes id {} [[1, 2], [3]])
    [5] [5] rfl
  rw [h1] at h
  exact ⟨h1, h⟩

end atoms

namespace var_vec

/-- A `push_back` keeps the names below the old size. -/
theorem names_push_back (t : var_vec) (name : String) (i : Nat) (hi : i < t.size) :
    (t.push_back name).2.names[i]? = t.names[i]? := by
  cases hf : unordered_map.find t.map name with
  | some w => rw [push_back_old t name w hf]
  | none =>
    rw [push_back_new t name hf]
    exact List.getElem?_append_left hi

/-- A `push_back` keeps the result of `find` on every key of the name map. -/
theorem find_push_back (t : var_vec) (name k : String) (w : Nat)
    (h : unordered_map.find t.map k = some w) :
    (t.push_back name).2.find k = t.find k := by
  have h2 : unordered_map.find (t.push_back name).2.map k = some w := by
    have hins := unordered_map.find_insert_of_some t.map name t.size k w h
    simp only [push_back]
    split <;> exact hins
  simp [find, h, h2]

/-- A `push_back` never shrinks the table. -/
theorem size_push_back (t : var_vec) (name : String) : t.size ≤ (t.push_back name).2.size := by
  cases hf : unordered_map.find t.map name with
  | some w => rw [push_back_old t name w hf]
  | none =>
    rw [push_back_new t name hf]
    simp [size]

end var_vec

section append_only

variable {ineqc : Type}

/-- C15: a `var_vec::push_back(name)` and an `ineq_vec::push_back(atom)` never decrease the
size, and keep, below the old size, the name at every index, the atom at every index, and
the result of `find` on every name stored in the name map; in a table built by its
`push_back` calls these are the names at the indices below the size, and an atom is stored
at each of them. -/
theorem tables_append_only (get_key : ineqc → List ℚ) :
    (∀ (t : var_vec) (name : String),
      t.size ≤ (t.push_back name).2.size ∧
      (∀ i, i < t.size → (t.push_back name).2.name i = t.name i) ∧
      (∀ k w, unordered_map.find t.map k = some w →
        (t.push_back name).2.find k = t.find k)) ∧
    (∀ (l : List String) (name : String) (i : Nat), i < (var_vec.pushes {} l).size →
      ∃ k, (var_vec.pushes {} l).name i = some k ∧
        ((var_vec.pushes {} l).push_back name).2.name i = some k ∧
        ((var_vec.pushes {} l).push_back name).2.find k = (var_vec.pushes {} l).find k) ∧
    (∀ (t : ineq_vec ineqc) (ie : ineqc),
      t.size ≤ (ineq_vec.push_back get_key t ie).2.size ∧
      (∀ i, i < t.size →
        (ineq_vec.push_back get_key t ie).2.tovar_vec.name i = t.tovar_vec.name i) ∧
      (∀ i, i < t.ineqs.length → (ineq_vec.push_back get_key t ie).2.ie i = t.ie i) ∧
      (∀ k w, unordered_map.find t.map k = some w →
        (ineq_vec.push_back get_key t ie).2.tovar_vec.find k = t.tovar_vec.find k)) ∧
    (∀ (l : List ineqc) (ie : ineqc) (i : Nat), i < (ineq_vec.pushes get_key {} l).size →
      ∃ k a, (ineq_vec.pushes get_key {} l).tovar_vec.name i = some k ∧
        (ineq_vec.pushes get_key {} l).ie i = some a ∧
        (ineq_vec.push_back get_key (ineq_vec.pushes get_key {} l) ie).2.tovar_vec.name i
          = some k ∧
        (ineq_vec.push_back get_key (ineq_vec.pushes get_key {} l) ie).2.ie i = some a ∧
        (ineq_vec.push_back get_key (ineq_vec.pushes get_key {} l) ie).2.tovar_vec.find k
          = (ineq_vec.pushes get_key {} l).tovar_vec.find k) := by
  have hvar : ∀ (t : var_vec) (name : String),
      t.size ≤ (t.push_back name).2.size ∧
      (∀ i, i < t.size → (t.push_back name).2.name i = t.name i) ∧
      (∀ k w, unordered_map.find t.map k = some w →
        (t.push_back name).2.find k = t.find k) :=
    fun t name => ⟨var_vec.size_push_back t name, var_vec.names_push_back t name,
      var_vec.find_push_back t name⟩
  have hineq : ∀ (t : ineq_vec ineqc) (ie : ineqc),
      t.size ≤ (ineq_vec.push_back get_key t ie).2.size ∧
      (∀ i, i < t.size →
        (ineq_vec.push_back get_key t ie).2.tovar_vec.name i = t.tovar_vec.name i) ∧
      (∀ i, i < t.ineqs.length → (ineq_vec.push_back get_key t ie).2.ie i = t.ie i) ∧
      (∀ k w, unordered_map.find t.map k = some w →
        (ineq_vec.push_back get_key t ie).2.tovar_vec.find k = t.tovar_vec.find k) := by
    intro t ie
    cases hf : unordered_map.find t.ineq_map (get_key ie) with
    | some u =>
      rw [ineq_vec.push_back_stored get_key t ie u hf]
      exact ⟨le_rfl, fun _ _ => rfl, fun _ _ => rfl, fun _ _ _ => rfl⟩
    | none =>
      rw [ineq_vec.push_back_fresh get_key t ie hf]
      refine ⟨?_, ?_, ?_, ?_⟩
      · simp [ineq_vec.size, var_vec.size]
      · intro i hi
        exact List.getElem?_append_left hi
      · intro i hi
        exact List.getElem?_append_left hi
      · intro k w hk
        have h2 := unordered_map.find_insert_of_some t.map
          (ineq_vec.mk_ineq_name t.names.length) t.names.length k w hk
        simp [var_vec.find, hk, h2]
  refine ⟨hvar, ?_, hineq, ?_⟩
  · intro l name i hi
    have hi2 : i < (var_vec.pushes {} l).names.length := hi
    have hk : (var_vec.pushes {} l).names[i]? = some (var_vec.pushes {} l).names[i] := by
      simp [hi2]
    refine ⟨(var_vec.pushes {} l).names[i], hk, ?_, ?_⟩
    · rw [(hvar _ name).2.1 i hi]
      exact hk
    · exact (hvar _ name).2.2 _ i ((var_vec.agree_built l _ i).2 hk)
  · intro l ie i hi
    have hc := ineq_vec.consistent_pushes get_key l {} (ineq_vec.consistent_empty get_key)
    have hi2 : i < (ineq_vec.pushes get_key {} l).names.length := hi
    have hi3 : i < (ineq_vec.pushes get_key {} l).ineqs.length := by
      rw [← hc.1]; exact hi2
    have hk : (ineq_vec.pushes get_key {} l).names[i]?
        = some (ineq_vec.pushes get_key {} l).names[i] := by
      simp [hi2]
    have ha : (ineq_vec.pushes get_key {} l).ineqs[i]?
        = some (ineq_vec.pushes get_key {} l).ineqs[i] := by
      simp [hi3]
    refine ⟨_, _, hk, ha, ?_, ?_, ?_⟩
    · rw [(hineq _ ie).2.1 i hi]
      exact hk
    · rw [(hineq _ ie).2.2.1 i hi3]
      exact ha
    · exact (hineq _ ie).2.2.2 _ i ((hc.2.2.2 _ i).2 hk)

/-- C15 on the table holding the atoms `[1, 2]` and `[3]`: after a push of `[5]` the size
is 3, and index 1 still holds the atom `[3]` under the name `_ie1`. -/
theorem tables_append_only_witness :
    (ineq_vec.pushes id {} [[1, 2], [3]]).size = 2 ∧
    (ineq_vec.push_back id (ineq_vec.pushes id {} [[1, 2], [3]]) [5]).2.size = 3 ∧
    (ineq_vec.push_back id (ineq_vec.pushes id {} [[1, 2], [3]]) [5]).2.ie 1 = some [3] ∧
    (ineq_vec.push_back id (ineq_vec.pushes id {} [[1, 2], [3]]) [5]).2.tovar_vec.name 1
      = some "_ie1" := by
  have h := (tables_append_only id).2.2.1 (ineq_vec.pushes id {} [[1, 2], [3]]) [5]
  have hs : (ineq_vec.pushes id {} [[1, 2], [3]]).size = 2 := by decide
  refine ⟨hs, by decide, ?_, ?_⟩
  · rw [h.2.2.1 1 (by decide)]
    decide
  · rw [h.2.1 1 (by rw [hs]; decide)]
    decide

/-- C16: in an atom table built from the empty table by `ineq_vec::push_back` calls only,
the atom at every index `i < size()` is named `_ie` followed by the decimal digits of `i`,
the names at distinct indices are distinct, and `find` on that name returns `i`. -/
theorem ineq_vec_names (get_key : ineqc → List ℚ) (l : List ineqc) :
    (∀ i, i < (ineq_vec.pushes get_key {} l).size →
      (ineq_vec.pushes get_key {} l).tovar_vec.name i = some ("_ie" ++ toString i) ∧
      (ineq_vec.pushes get_key {} l).tovar_vec.find ("_ie" ++ toString i) = i) ∧
    (∀ i j, i < (ineq_vec.pushes get_key {} l).size →
      j < (ineq_vec.pushes get_key {} l).size →
      (ineq_vec.pushes get_key {} l).tovar_vec.name i
        = (ineq_vec.pushes get_key {} l).tovar_vec.name j → i = j) := by
  have hc := ineq_vec.consistent_pushes get_key l {} (ineq_vec.consistent_empty get_key)
  obtain ⟨-, -, hname, hmap⟩ := hc
  have hfind := (var_vec.find_of_agree _ hmap).1
  constructor
  · intro i hi
    exact ⟨hname i hi, hfind i _ (hname i hi)⟩
  · intro i j hi hj hij
    have h1 : (ineq_vec.pushes get_key {} l).names[i]?
        = (ineq_vec.pushes get_key {} l).names[j]? := hij
    rw [hname i hi, hname j hj] at h1
    exact ineq_vec.mk_ineq_name_injective i j (Option.some.inj h1)

/-- C16 on the run of pushes of `[1, 2]`, `[3]`, `[1, 2]`: index 1 is named `_ie1`, and
`find("_ie1")` is 1. -/
theorem ineq_vec_names_witness :
    (ineq_vec.pushes id {} [[1, 2], [3], [1, 2]]).tovar_vec.name 1 = some "_ie1" ∧
    (ineq_vec.pushes id {} [[1, 2], [3], [1, 2]]).tovar_vec.find "_ie1" = 1 :=
  (ineq_vec_names id [[1, 2], [3], [1, 2]]).1 1 (by decide)

end append_only

/-! ## Node values and the multiplier -/

/-- C17: every `dagv` is in exactly one of the states unknown, true, false; the default
value is unknown and `dagv(b)` is true exactly when `b` is; `operator!` sends unknown to
unknown, true to false and false to true, so `!(!x)` is in the state of `x`; and
`negate()` leaves `x` equal to what `operator!` returns. -/
theorem dagv_three_valued (x : dagv) (b : Bool) :
    ((x.is_unknown = true ∧ x.is_true = false ∧ x.is_false = false) ∨
      (x.is_unknown = false ∧ x.is_true = true ∧ x.is_false = false) ∨
      (x.is_unknown = false ∧ x.is_true = false ∧ x.is_false = true)) ∧
    ({} : dagv).is_unknown = true ∧
    ((dagv.of_bool b).is_true = b ∧ (dagv.of_bool b).is_false = !b ∧
      (dagv.of_bool b).is_unknown = false) ∧
    (x.is_unknown = true → x.op_not.is_unknown = true) ∧
    (x.is_true = true → x.op_not.is_false = true) ∧
    (x.is_false = true → x.op_not.is_true = true) ∧
    (x.op_not.op_not.is_unknown = x.is_unknown ∧ x.op_not.op_not.is_true = x.is_true ∧
      x.op_not.op_not.is_false = x.is_false) ∧
    x.negate = x.op_not := by
  obtain ⟨v⟩ := x
  refine ⟨?_, rfl, ?_, ?_, ?_, ?_, ?_, ?_⟩
  · by_cases h1 : v = -1
    · subst h1; decide
    · by_cases h0 : v = 0
      · subst h0; decide
      · simp [dagv.is_unknown, dagv.is_true, dagv.is_false, h1, h0]
  · cases b <;> decide
  · intro h
    simp [dagv.op_not, h]
    rfl
  · intro h
    have h1 : v ≠ -1 := by
      intro e; subst e; exact absurd h (by decide)
    have h0 : v ≠ 0 := by
      intro e; subst e; exact absurd h (by decide)
    simp [dagv.op_not, dagv.is_unknown, dagv.is_false, dagv.of_bool, h1, h0]
  · intro h
    have h0 : v = 0 := by
      by_contra e
      simp [dagv.is_false, e] at h
    subst h0
    decide
  · by_cases h1 : v = -1
    · subst h1; decide
    · by_cases h0 : v = 0
      · subst h0; decide
      · simp [dagv.op_not, dagv.is_unknown, dagv.is_true, dagv.is_false, dagv.of_bool,
          h1, h0]
  · by_cases h1 : v = -1
    · subst h1; decide
    · simp [dagv.negate, dagv.op_not, dagv.is_unknown, dagv.of_bool, h1]

/-- C17 at `dagv(true)`: its negation is false, and negating twice gives true again. -/
theorem dagv_three_valued_witness :
    (dagv.of_bool true).is_true = true ∧
    (dagv.of_bool true).op_not.is_false = true ∧
    (dagv.of_bool true).op_not.op_not.is_true = true := by
  have h := dagv_three_valued (dagv.of_bool true) true
  have h1 : (dagv.of_bool true).is_true = true := h.2.2.1.1
  exact ⟨h1, h.2.2.2.2.1 h1, h.2.2.2.2.2.2.1.2.1.trans h1⟩

section multiplier

variable {ineqc : Type}

/-- C18: while solving is not initialized, for every handle `h` with `m = 1` or `m = -1`
the handle `mk_not(h)` has `bval()` equal to the negation of `h.bval()`; in particular
`mk_not(mk_true()).bval()` is false and `mk_not(mk_false()).bval()` is true; and for every
handle `h` the handle `mk_neg(h)` has `nval()` equal to `-h.nval()`.  The member `negate()`
flips the multiplier in the same way. -/
theorem multiplier_encodes_negation (s : solver ineqc) (h : dagc)
    (hs : s.solving_initialized = false) :
    ((h.m = 1 ∨ h.m = -1) →
      ∃ y, s.mk_not h = Except.ok (y, s) ∧ y.bval = !h.bval ∧ h.negate.bval = !h.bval) ∧
    (∃ y, solver.andThen s.mk_true solver.mk_not = Except.ok (y, s) ∧ y.bval = false) ∧
    (∃ z, solver.andThen s.mk_false solver.mk_not = Except.ok (z, s) ∧ z.bval = true) ∧
    (∃ y, s.mk_neg h = Except.ok (y, s) ∧ y.nval = -h.nval ∧ h.negate.nval = -h.nval) := by
  have hflip : ∀ x : dagc, (x.m = 1 ∨ x.m = -1) →
      (⟨x.t, x.id, x.v, -x.m⟩ : dagc).bval = !x.bval := by
    intro x hx
    rcases hx with hx | hx
    · by_cases hv : x.v = 0 <;> simp [dagc.bval, dagc.isneg, hx, hv]
    · by_cases hv : x.v = 0 <;> simp [dagc.bval, dagc.isneg, hx, hv]
  have htrue : s.mk_true = Except.ok (⟨NODE_TYPE.NT_CONST_BOOL, 0, 1, 1⟩, s) := by
    simp [solver.mk_true, hs]; rfl
  have hfalse : s.mk_false = Except.ok (⟨NODE_TYPE.NT_CONST_BOOL, 0, 0, 1⟩, s) := by
    simp [solver.mk_false, hs]; rfl
  refine ⟨?_, ?_, ?_, ?_⟩
  · intro hm
    exact ⟨_, (flip_returns s h hs).1, hflip h hm, hflip h hm⟩
  · refine ⟨⟨NODE_TYPE.NT_CONST_BOOL, 0, 1, -1⟩, ?_, ?_⟩
    · rw [htrue]
      simp only [solver.andThen]
      exact (flip_returns s _ hs).1
    · simp [dagc.bval, dagc.isneg]
  · refine ⟨⟨NODE_TYPE.NT_CONST_BOOL, 0, 0, -1⟩, ?_, ?_⟩
    · rw [hfalse]
      simp only [solver.andThen]
      exact (flip_returns s _ hs).1
    · simp [dagc.bval, dagc.isneg]
  · refine ⟨_, (flip_returns s h hs).2, ?_, ?_⟩
    · simp [dagc.nval]
    · simp [dagc.nval, dagc.negate]

/-- C18 at the handle `<NT_ADD, 0, 3, 2>` in a fresh solver: `mk_neg` returns the handle
with multiplier `-2`, whose `nval()` is `-6`. -/
theorem multiplier_encodes_negation_witness :
    ∃ y, (solver.new Unit "r" "t").mk_neg ⟨NODE_TYPE.NT_ADD, 0, 3, 2⟩
        = Except.ok (y, solver.new Unit "r" "t") ∧
      y.nval = -(⟨NODE_TYPE.NT_ADD, 0, 3, 2⟩ : dagc).nval ∧
      (⟨NODE_TYPE.NT_ADD, 0, 3, 2⟩ : dagc).negate.nval
        = -(⟨NODE_TYPE.NT_ADD, 0, 3, 2⟩ : dagc).nval :=
  (multiplier_encodes_negation (solver.new Unit "r" "t") ⟨NODE_TYPE.NT_ADD, 0, 3, 2⟩
    rfl).2.2.2

end multiplier

/-! ## Bunch records and the operator arena -/

namespace bunch_elem

/-- The first `k` rounds of a loop of the constructor copy the first `k` values, as long as
`vals` has them. -/
theorem collect_eq_take (t : var_vec) (k : Nat) (h : k ≤ t.vals.length) :
    collect t k = some (t.vals.take k) := by
  induction k with
  | zero => simp [collect]
  | succ n ih =>
    have hn : n < t.vals.length := h
    have hv : t.val n = some t.vals[n] := by
      simp [var_vec.val, hn]
    rw [collect, ih (Nat.le_of_lt hn), hv, List.take_succ]
    simp [hn]

end bunch_elem

section bunches

variable {ineqc : Type}

/-- C19: for an atom table and a Boolean-variable table whose `vals` have the length
`size()` (as `init_vals()` leaves them), the constructor `bunch_elem(ineq_list,
vbool_list)` returns a record whose `ineq_vals` and `vbool_vals` have the lengths
`ineq_list.size()` and `vbool_list.size()` and hold `ineq_list.val(i)` and
`vbool_list.val(j)` at every index in range; every read of the constructor is inside
`vals`. -/
theorem bunch_elem_snapshot (ineq_list : ineq_vec ineqc) (vbool_list : var_vec)
    (h1 : ineq_list.vals.length = ineq_list.size)
    (h2 : vbool_list.vals.length = vbool_list.size) :
    (∃ b, bunch_elem.init ineq_list vbool_list = some b ∧
      b.ineq_vals.length = ineq_list.size ∧
      b.vbool_vals.length = vbool_list.size ∧
      (∀ i, i < ineq_list.size →
        ∃ x, ineq_list.tovar_vec.val i = some x ∧ b.ineq_vals[i]? = some x) ∧
      (∀ j, j < vbool_list.size →
        ∃ x, vbool_list.val j = some x ∧ b.vbool_vals[j]? = some x)) ∧
    (ineq_list.init_vals.vals.length = ineq_list.init_vals.size ∧
      vbool_list.init_vals.vals.length = vbool_list.init_vals.size) := by
  have hread : ∀ (t : var_vec) (i : Nat), i < t.vals.length →
      ∃ x, t.val i = some x ∧ t.vals[i]? = some x := by
    intro t i hi
    exact ⟨t.vals[i], by simp [var_vec.val, hi], by simp [hi]⟩
  have hc1 : bunch_elem.collect ineq_list.tovar_vec ineq_list.size = some ineq_list.vals := by
    rw [bunch_elem.collect_eq_take _ _ (by rw [h1]), ← h1, List.take_length]
  have hc2 : bunch_elem.collect vbool_list vbool_list.size = some vbool_list.vals := by
    rw [bunch_elem.collect_eq_take _ _ (by rw [h2]), ← h2, List.take_length]
  refine ⟨⟨⟨ineq_list.vals, vbool_list.vals⟩, ?_, h1, h2, ?_, ?_⟩, ?_, ?_⟩
  · simp [bunch_elem.init, hc1, hc2]
  · intro i hi
    exact hread ineq_list.tovar_vec i (by rw [h1]; exact hi)
  · intro j hj
    exact hread vbool_list j (by rw [h2]; exact hj)
  · simp [ineq_vec.init_vals, ineq_vec.size, var_vec.size]
  · simp [var_vec.init_vals, var_vec.size]

/-- C19 on a table of two atoms valued true and unknown and a table of one Boolean
variable valued false: the record copies both value vectors. -/
theorem bunch_elem_snapshot_witness :
    ∃ b, bunch_elem.init
        ({ ineq_vec.pushes id {} [[1, 2], [3]] with
            vals := [dagv.of_bool true, {}] } : ineq_vec (List ℚ))
        { var_vec.pushes {} ["p"] with vals := [dagv.of_bool false] } = some b ∧
      b.ineq_vals.length = 2 ∧ b.vbool_vals.length = 1 :=
  have h := (bunch_elem_snapshot
    ({ ineq_vec.pushes id {} [[1, 2], [3]] with
        vals := [dagv.of_bool true, {}] } : ineq_vec (List ℚ))
    { var_vec.pushes {} ["p"] with vals := [dagv.of_bool false] }
    (by decide) (by decide)).1
  h.imp fun _ hb => ⟨hb.1, hb.2.1, hb.2.2.1⟩

end bunches

namespace op_vec

/-- The library `resize` gives a vector of the requested length. -/
theorem length_vector_resize {α : Type} (l : List α) (n : Nat) (d : α) :
    (vector_resize l n d).length = n := by
  simp [vector_resize]
  omega

/-- Every table reached by `push_back`, `resize` and `init_vals` has as many types as child
lists. -/
theorem Built.lengths (t : op_vec) (h : Built t) : t.types.length = t.ops.length := by
  induction h with
  | empty => rfl
  | push t ty elem _ ih => simp [push_back, ih]
  | resize t n _ _ => simp only [op_vec.resize, length_vector_resize]
  | init_vals t _ ih => exact ih

/-- A `push_back` stores the type and the child list at the old size and keeps every
earlier entry. -/
theorem push_back_spec (t : op_vec) (ty : NODE_TYPE) (elem : List dagc)
    (h : t.types.length = t.ops.length) :
    (t.push_back ty elem).size = t.size + 1 ∧
    (t.push_back ty elem).type t.size = some ty ∧
    (t.push_back ty elem).children t.size = some elem ∧
    (t.push_back ty elem).vals = t.vals ∧
    (t.push_back ty elem).types.length = (t.push_back ty elem).ops.length ∧
    (∀ i, i < t.size →
      (t.push_back ty elem).type i = t.type i ∧
      (t.push_back ty elem).children i = t.children i) := by
  refine ⟨by simp [push_back, size], ?_, by simp [push_back, size, children], rfl,
    by simp [push_back, h], ?_⟩
  · simp [push_back, size, type, ← h]
  · intro i hi
    have hi2 : i < t.ops.length := hi
    constructor
    · exact List.getElem?_append_left (by rw [h]; exact hi2)
    · exact List.getElem?_append_left hi2

end op_vec

section arena

variable {ineqc : Type}

/-- C20: in a solver whose operator tables are in step (as many types as child lists, as
in every table reached by the member functions of `op_vec`), `mk_oper(t, p)` returns a
handle `h`
with `h.t = t` and `h.id` the size of `bop_list` before the call; after the call
`bop_list.type(h.id) = t` and `bop_list.children(h.id) = p`, every earlier entry of
`bop_list` is as before, and `nop_list` is as before; `mk_num_oper(t, p)` does the same on
`nop_list` and leaves `bop_list` as before. -/
theorem mk_oper_appends (s : solver ineqc) (t : NODE_TYPE) (p : List dagc) (val mult : ℚ)
    (hb : s.bop_list.types.length = s.bop_list.ops.length)
    (hn : s.nop_list.types.length = s.nop_list.ops.length) :
    (∃ h s1, s.mk_oper t p val mult = Except.ok (h, s1) ∧
      h = ⟨t, s.bop_list.size, val, mult⟩ ∧
      s1.bop_list.size = s.bop_list.size + 1 ∧
      s1.bop_list.type h.id = some t ∧
      s1.bop_list.children h.id = some p ∧
      (∀ i, i < s.bop_list.size →
        s1.bop_list.type i = s.bop_list.type i ∧
        s1.bop_list.children i = s.bop_list.children i) ∧
      s1.bop_list.vals = s.bop_list.vals ∧
      s1.nop_list = s.nop_list ∧
      s1.bop_list.types.length = s1.bop_list.ops.length) ∧
    (∃ h s1, s.mk_num_oper t p val mult = Except.ok (h, s1) ∧
      h = ⟨t, s.nop_list.size, val, mult⟩ ∧
      s1.nop_list.size = s.nop_list.size + 1 ∧
      s1.nop_list.type h.id = some t ∧
      s1.nop_list.children h.id = some p ∧
      (∀ i, i < s.nop_list.size →
        s1.nop_list.type i = s.nop_list.type i ∧
        s1.nop_list.children i = s.nop_list.children i) ∧
      s1.nop_list.vals = s.nop_list.vals ∧
      s1.bop_list = s.bop_list ∧
      s1.nop_list.types.length = s1.nop_list.ops.length) ∧
    (∀ u : op_vec, op_vec.Built u → u.types.length = u.ops.length) := by
  obtain ⟨b1, b2, b3, b4, b5, b6⟩ := op_vec.push_back_spec s.bop_list t p hb
  obtain ⟨n1, n2, n3, n4, n5, n6⟩ := op_vec.push_back_spec s.nop_list t p hn
  refine ⟨⟨⟨t, s.bop_list.size, val, mult⟩,
      { s with bop_list := s.bop_list.push_back t p }, ?_, rfl, b1, b2, b3, b6, b4, rfl, b5⟩,
    ⟨⟨t, s.nop_list.size, val, mult⟩,
      { s with nop_list := s.nop_list.push_back t p }, ?_, rfl, n1, n2, n3, n6, n4, rfl, n5⟩,
    op_vec.Built.lengths⟩
  · simp only [solver.mk_oper, b1, Nat.add_sub_cancel]
    rfl
  · simp only [solver.mk_num_oper, n1, Nat.add_sub_cancel]
    rfl

/-- C20 on the sample solver, whose `bop_list` holds one operator: `mk_oper(NT_OR, [])`
returns the handle `<NT_OR, 1, 0, 1>`. -/
theorem mk_oper_appends_witness :
    ∃ s1, sample_solver.mk_oper NODE_TYPE.NT_OR [] 0 1
        = Except.ok (⟨NODE_TYPE.NT_OR, 1, 0, 1⟩, s1) ∧
      s1.bop_list.type 1 = some NODE_TYPE.NT_OR ∧
      s1.nop_list = sample_solver.nop_list := by
  obtain ⟨h, s1, h1, h2, -, h4, -, -, -, h8, -⟩ :=
    (mk_oper_appends sample_solver NODE_TYPE.NT_OR [] 0 1 rfl rfl).1
  subst h2
  exact ⟨s1, h1, h4, h8⟩

end arena

/-! ## The bracket of a volume result -/

/-- C21: for all volume results `a`, `b` produced by the constructors with
`lower ≤ value ≤ upper`, the sum `a + b` and the product `a * b` are returned and satisfy
`lower ≤ value ≤ upper`, and so does `a * c` for every scalar `c ≥ 0`, whether or not
assertions are compiled in (exact arithmetic). -/
theorem VOL_RES_CLS_bracket_preserved (ndebug : Bool) (a b : VOL_RES_CLS) (c : ℚ)
    (ha : VOL_RES_CLS.Produced ndebug a) (hb : VOL_RES_CLS.Produced ndebug b)
    (hab : a.Bracketed) (hbb : b.Bracketed) (hc : 0 ≤ c) :
    (∃ r, VOL_RES_CLS.add ndebug a b = some r ∧ r.Bracketed) ∧
    (∃ r, VOL_RES_CLS.mul ndebug a b = some r ∧ r.Bracketed) ∧
    (∃ r, VOL_RES_CLS.mul_scalar ndebug a c = some r ∧ r.Bracketed) := by
  obtain ⟨-, hau, hal⟩ := ha.nonneg
  obtain ⟨-, hbu, hbl⟩ := hb.nonneg
  obtain ⟨ha1, ha2⟩ := hab
  obtain ⟨hb1, hb2⟩ := hbb
  have hav : 0 ≤ a.value := le_trans hal ha1
  have hbv : 0 ≤ b.value := le_trans hbl hb1
  refine ⟨⟨⟨a.value + b.value, a.upper + b.upper, a.lower + b.lower⟩, ?_, ?_⟩,
    ⟨⟨a.value * b.value, a.upper * b.upper, a.lower * b.lower⟩, ?_, ?_⟩,
    ⟨⟨a.value * c, a.upper * c, a.lower * c⟩, ?_, ?_⟩⟩
  · rw [VOL_RES_CLS.add, VOL_RES_CLS.init_of_pass ndebug _ _ _ (Or.inr (add_nonneg hav hbv)),
      if_neg (not_lt.mpr (add_nonneg hau hbu)), if_neg (not_lt.mpr (add_nonneg hal hbl))]
  · exact ⟨add_le_add ha1 hb1, add_le_add ha2 hb2⟩
  · rw [VOL_RES_CLS.mul, VOL_RES_CLS.init_of_pass ndebug _ _ _ (Or.inr (mul_nonneg hav hbv)),
      if_neg (not_lt.mpr (mul_nonneg hau hbu)), if_neg (not_lt.mpr (mul_nonneg hal hbl))]
  · exact ⟨mul_le_mul ha1 hb1 hbl hav, mul_le_mul ha2 hb2 hbv hau⟩
  · rw [VOL_RES_CLS.mul_scalar,
      VOL_RES_CLS.init_of_pass ndebug _ _ _ (Or.inr (mul_nonneg hav hc)),
      if_neg (not_lt.mpr (mul_nonneg hau hc)), if_neg (not_lt.mpr (mul_nonneg hal hc))]
  · exact ⟨mul_le_mul_of_nonneg_right ha1 hc, mul_le_mul_of_nonneg_right ha2 hc⟩

/-- C21 at `a = VOL_RES_CLS(2, 3, 1)`, `b = VOL_RES_CLS(4, 5, 0)` and `c = 4`: the sum
`(6, 8, 1)`, the product `(8, 15, 0)` and the scalar product `(8, 12, 4)` are bracketed. -/
theorem VOL_RES_CLS_bracket_preserved_witness :
    (∃ r, VOL_RES_CLS.add false ⟨2, 3, 1⟩ ⟨4, 5, 0⟩ = some r ∧ r.Bracketed) ∧
    (∃ r, VOL_RES_CLS.mul false ⟨2, 3, 1⟩ ⟨4, 5, 0⟩ = some r ∧ r.Bracketed) ∧
    (∃ r, VOL_RES_CLS.mul_scalar false ⟨2, 3, 1⟩ 4 = some r ∧ r.Bracketed) := by
  have ha : VOL_RES_CLS.Produced false ⟨2, 3, 1⟩ := by
    refine Or.inr ⟨2, 3, 1, ?_⟩
    rw [VOL_RES_CLS.init_of_pass false 2 3 1 (Or.inr (by norm_num))]
    norm_num
  have hb : VOL_RES_CLS.Produced false ⟨4, 5, 0⟩ := by
    refine Or.inr ⟨4, 5, 0, ?_⟩
    rw [VOL_RES_CLS.init_of_pass false 4 5 0 (Or.inr (by norm_num))]
    norm_num
  exact VOL_RES_CLS_bracket_preserved false ⟨2, 3, 1⟩ ⟨4, 5, 0⟩ 4 ha hb
    (by constructor <;> norm_num) (by constructor <;> norm_num) (by norm_num)

end volce
